import Mathlib

/-!
Verification of the deadline-driven task scheduler in src/src/algorithms.py.

The Python module operates on dict/list structures; we embed them as Lean
structures. Python string task ids (such as "0", "1") are modelled as Nat;
node ids likewise. Python ints are modelled as Int. Python dicts keyed by id
are modelled as association lists in insertion order (insertion order matters
for the min over node_time used by edf_multinode). Python exceptions
(KeyError, ValueError, StopIteration) are modelled with an Except monad.
The in-place sort that the Python code performs on the caller's task list is
modelled by returning the post-call task list alongside the result.
-/

namespace Sched

/-- A task record: unique id, worst-case execution time, absolute deadline,
and the optional pre-assigned node stored under the node_id key of the Python
task dict (absent on ordinary tasks; read by edf_multinode via .get). -/
structure Task where
  id : Nat
  wcet : Int
  deadline : Int
  node_hint : Option Nat := none
deriving Repr, DecidableEq

/-- A message: dependency edge from sender task to receiver task. -/
structure Message where
  sender : Nat
  receiver : Nat
deriving Repr, DecidableEq

/-- A compute node of the platform. -/
structure Node where
  id : Nat
deriving Repr, DecidableEq

/-- A directed link between two nodes with a communication delay. -/
structure Link where
  start_node : Nat
  end_node : Nat
  link_delay : Int
deriving Repr, DecidableEq

/-- One entry of a produced schedule, mirroring the Python result dicts. -/
structure ScheduleEntry where
  task_id : Nat
  node_id : Nat
  start_time : Int
  end_time : Int
  deadline : Int
deriving Repr, DecidableEq

/-- The value returned by each scheduling function: an entry list and a name. -/
structure Schedule where
  schedule : List ScheduleEntry
  name : String
deriving Repr, DecidableEq

/-- The application input: tasks plus dependency messages. -/
structure ApplicationData where
  tasks : List Task
  messages : List Message
deriving Repr, DecidableEq

/-- The platform input: nodes plus links. -/
structure PlatformData where
  nodes : List Node
  links : List Link
deriving Repr, DecidableEq

/-- Python exceptions that the translated code can raise. outOfFuel is a
modelling artifact of the fueled loop; the fuel bound is provably sufficient. -/
inductive PyError where
  | keyError (key : Nat)
  | valueError
  | stopIteration
  | outOfFuel
deriving Repr, DecidableEq

/-- Outcome of a scheduling call: the returned Schedule, plus the contents of
the caller-owned task list after the call (the Python code sorts that list in
place, so it may differ from the list that was passed in). -/
structure SchedOutcome where
  result : Schedule
  tasksAfter : List Task
deriving Repr, DecidableEq

/-! ### Python dict primitives over association lists -/

/-- Dict lookup: value of the first pair whose key matches. -/
def dictGet? (d : List (Nat × Int)) (k : Nat) : Option Int :=
  (d.find? (fun p => p.1 == k)).map (·.2)

/-- Dict store: overwrite in place when the key exists, append otherwise
(matching Python dict insertion-order semantics). -/
def dictSet : List (Nat × Int) → Nat → Int → List (Nat × Int)
  | [], k, v => [(k, v)]
  | p :: rest, k, v => if p.1 = k then (k, v) :: rest else p :: dictSet rest k v

/-! ### Graph construction (lines 72-79, 138-145, 300-307 of algorithms.py) -/

/-- graph[tid]: receivers of the messages whose sender is tid, in message
order (the defaultdict adjacency list built by the message loop). -/
def adjacents (messages : List Message) (tid : Nat) : List Nat :=
  (messages.filter (fun m => m.sender == tid)).map (·.receiver)

/-- in_degree = \x7btask['id']: 0 for task in tasks\x7d. -/
def initIndeg (tasks : List Task) : List (Nat × Int) :=
  tasks.foldl (fun d t => dictSet d t.id 0) []

/-- The message loop that fills the in-degree dict: for each message,
in_degree[receiver] += 1, raising KeyError when receiver is not a key. -/
def buildIndegAux : List (Nat × Int) → List Message → Except PyError (List (Nat × Int))
  | d, [] => .ok d
  | d, m :: rest =>
    match dictGet? d m.receiver with
    | none => .error (.keyError m.receiver)
    | some v => buildIndegAux (dictSet d m.receiver (v + 1)) rest

/-- in_degree after the graph-building message loop (lines 73-79 etc). -/
def buildIndeg (tasks : List Task) (messages : List Message) :
    Except PyError (List (Nat × Int)) :=
  buildIndegAux (initIndeg tasks) messages

/-! ### Sorting. Python sorted/list.sort with key deadline is a stable sort;
insertion sort with a total preorder is extensionally the same stable sort. -/

/-- EDF comparison: ascending deadline. -/
def edfLe : Task → Task → Prop := fun a b => a.deadline ≤ b.deadline

/-- LDF comparison: descending deadline (Python reverse=True keeps stability). -/
def ldfLe : Task → Task → Prop := fun a b => b.deadline ≤ a.deadline

instance : DecidableRel edfLe := fun a b => inferInstanceAs (Decidable (a.deadline ≤ b.deadline))

instance : DecidableRel ldfLe := fun a b => inferInstanceAs (Decidable (b.deadline ≤ a.deadline))

/-- sorted(l, key=deadline). -/
def edfSort (l : List Task) : List Task := List.insertionSort edfLe l

/-- sorted(l, key=deadline, reverse=True). -/
def ldfSort (l : List Task) : List Task := List.insertionSort ldfLe l

/-! ### The dependent-release loop shared by both single-node schedulers
(lines 105-111 and 172-178 of algorithms.py). -/

/-- For each dependent: in_degree[dependent] -= 1; when it reaches 0, look up
the first task with that id in the (sorted) task list and append it to the
ready queue. -/
def releaseDeps (tasks : List Task) : List Nat → List (Nat × Int) → List Task →
    Except PyError (List (Nat × Int) × List Task)
  | [], d, acc => .ok (d, acc)
  | dep :: rest, d, acc =>
    match dictGet? d dep with
    | none => .error (.keyError dep)
    | some v =>
      if v - 1 = 0 then
        match tasks.find? (fun t => t.id == dep) with
        | none => .error .stopIteration
        | some t => releaseDeps tasks rest (dictSet d dep (v - 1)) (acc ++ [t])
      else releaseDeps tasks rest (dictSet d dep (v - 1)) acc

/-- Fuel bound for the while loops: at most tasks.length initial ready tasks
plus at most tasks.length later releases, so 2n+1 iterations never run out. -/
def pyFuel (tasks : List Task) : Nat := 2 * tasks.length + 1

/-- The ready-queue seed: tasks whose in-degree is 0 (line 84/151/314). -/
def readyFilter (d : List (Nat × Int)) (tasks : List Task) : List Task :=
  tasks.filter (fun t => decide (dictGet? d t.id = some 0))

/-- The single-node while loop (lines 89-114 and 156-181), parameterized by
the stable sort that re-sorts the ready queue after each iteration. -/
def snLoop (sortQ : List Task → List Task) (tasks : List Task) (messages : List Message) :
    Nat → List Task → List (Nat × Int) → Int → List ScheduleEntry →
    Except PyError (List ScheduleEntry × Int)
  | 0, _, _, _, _ => .error .outOfFuel
  | _ + 1, [], _, time, sched => .ok (sched, time)
  | fuel + 1, task :: rest, d, time, sched =>
    let entry : ScheduleEntry :=
      { task_id := task.id, node_id := 1, start_time := time,
        end_time := time + task.wcet, deadline := task.deadline }
    match releaseDeps tasks (adjacents messages task.id) d [] with
    | .error e => .error e
    | .ok (d2, newly) =>
      snLoop sortQ tasks messages fuel (sortQ (rest ++ newly)) d2 (time + task.wcet)
        (sched ++ [entry])

/-- ldf_single_node (algorithms.py lines 54-116). -/
def ldf_single_node (application_data : ApplicationData) : Except PyError SchedOutcome :=
  match buildIndeg application_data.tasks application_data.messages with
  | .error e => .error e
  | .ok d0 =>
    let ts := ldfSort application_data.tasks
    let q0 := ldfSort (readyFilter d0 ts)
    match snLoop ldfSort ts application_data.messages (pyFuel application_data.tasks) q0 d0 0 [] with
    | .error e => .error e
    | .ok (sched, _) =>
      .ok { result := { schedule := sched, name := "LDF Single Node" }, tasksAfter := ts }

/-- edf_single_node (algorithms.py lines 119-185). -/
def edf_single_node (application_data : ApplicationData) : Except PyError SchedOutcome :=
  match buildIndeg application_data.tasks application_data.messages with
  | .error e => .error e
  | .ok d0 =>
    let ts := edfSort application_data.tasks
    let q0 := edfSort (readyFilter d0 ts)
    match snLoop edfSort ts application_data.messages (pyFuel application_data.tasks) q0 d0 0 [] with
    | .error e => .error e
    | .ok (sched, _) =>
      .ok { result := { schedule := sched, name := "EDF Single Node" }, tasksAfter := ts }

/-! ### Multi-node EDF. -/

/-- Tail of the scan behind min(node_time, key=node_time.get): keep the
current best, replace it only on a strictly smaller value. -/
def minPairGo (k : Nat) (v : Int) : List (Nat × Int) → Nat × Int
  | [] => (k, v)
  | (k2, v2) :: rest => if v2 < v then minPairGo k2 v2 rest else minPairGo k v rest

/-- min(node_time, key=node_time.get) together with its value; none models the
ValueError that Python min raises on an empty dict. -/
def minPair : List (Nat × Int) → Option (Nat × Int)
  | [] => none
  | (k, v) :: rest => some (minPairGo k v rest)

/-- find_link_delay (algorithms.py lines 272-276): first matching link or 0. -/
def find_link_delay (links : List Link) (start_node : Nat) (end_node : Nat) : Int :=
  match links.find? (fun l => l.start_node == start_node && l.end_node == end_node) with
  | some l => l.link_delay
  | none => 0

/-- node_time = \x7bnode['id']: 0 for node in nodes\x7d (line 312). -/
def initNodeTime (nodes : List Node) : List (Nat × Int) :=
  nodes.foldl (fun d n => dictSet d n.id 0) []

/-- The dependent-release loop of edf_multinode (lines 339-350): decrement
in-degrees, and when a dependent becomes ready and carries a truthy node_id
hint different from the current node, raise that node's clock by the link
delay. Python truthiness makes a 0 hint falsy. -/
def releaseDepsMn (tasks : List Task) (links : List Link) (curNode : Nat) :
    List Nat → List (Nat × Int) → List (Nat × Int) → List Task →
    Except PyError (List (Nat × Int) × List (Nat × Int) × List Task)
  | [], d, nt, acc => .ok (d, nt, acc)
  | dep :: rest, d, nt, acc =>
    match dictGet? d dep with
    | none => .error (.keyError dep)
    | some v =>
      if v - 1 = 0 then
        match tasks.find? (fun t => t.id == dep) with
        | none => .error .stopIteration
        | some t =>
          match t.node_hint with
          | some h =>
            if h != 0 && h != curNode then
              match dictGet? nt h with
              | none => .error (.keyError h)
              | some hv =>
                match dictGet? nt curNode with
                | none => .error (.keyError curNode)
                | some cv =>
                  releaseDepsMn tasks links curNode rest (dictSet d dep (v - 1))
                    (dictSet nt h (max hv (cv + find_link_delay links curNode h)))
                    (acc ++ [t])
            else
              releaseDepsMn tasks links curNode rest (dictSet d dep (v - 1)) nt (acc ++ [t])
          | none =>
            releaseDepsMn tasks links curNode rest (dictSet d dep (v - 1)) nt (acc ++ [t])
      else releaseDepsMn tasks links curNode rest (dictSet d dep (v - 1)) nt acc

/-- The edf_multinode while loop (lines 319-353). -/
def mnLoop (tasks : List Task) (messages : List Message) (links : List Link) :
    Nat → List Task → List (Nat × Int) → List (Nat × Int) → List ScheduleEntry →
    Except PyError (List ScheduleEntry × List (Nat × Int))
  | 0, _, _, _, _ => .error .outOfFuel
  | _ + 1, [], _, nt, sched => .ok (sched, nt)
  | fuel + 1, task :: rest, d, nt, sched =>
    match minPair nt with
    | none => .error .valueError
    | some (nid, ntime) =>
      let entry : ScheduleEntry :=
        { task_id := task.id, node_id := nid, start_time := ntime,
          end_time := ntime + task.wcet, deadline := task.deadline }
      let nt1 := dictSet nt nid (ntime + task.wcet)
      match releaseDepsMn tasks links nid (adjacents messages task.id) d nt1 [] with
      | .error e => .error e
      | .ok (d2, nt2, newly) =>
        mnLoop tasks messages links fuel (edfSort (rest ++ newly)) d2 nt2 (sched ++ [entry])

/-- edf_multinode (algorithms.py lines 278-355). -/
def edf_multinode (application_data : ApplicationData) (platform_data : PlatformData) :
    Except PyError SchedOutcome :=
  match buildIndeg application_data.tasks application_data.messages with
  | .error e => .error e
  | .ok d0 =>
    let ts := edfSort application_data.tasks
    let q0 := edfSort (readyFilter d0 ts)
    match mnLoop ts application_data.messages platform_data.links
        (pyFuel application_data.tasks) q0 d0 (initNodeTime platform_data.nodes) [] with
    | .error e => .error e
    | .ok (sched, _) =>
      .ok { result := { schedule := sched, name := "EDF Multi Node" }, tasksAfter := ts }

/-- The hard-coded example_schedule constant (algorithms.py lines 22-51). -/
def example_schedule : List ScheduleEntry :=
  [ { task_id := 3, node_id := 0, start_time := 0, end_time := 20, deadline := 256 },
    { task_id := 2, node_id := 0, start_time := 20, end_time := 40, deadline := 300 },
    { task_id := 1, node_id := 0, start_time := 40, end_time := 60, deadline := 250 },
    { task_id := 0, node_id := 0, start_time := 60, end_time := 80, deadline := 250 } ]

/-- ll_multinode (lines 188-250): the body is a string literal; the function
only returns the hard-coded example schedule. It never touches its inputs. -/
def ll_multinode (_application_data : ApplicationData) (_platform_data : PlatformData) :
    Schedule :=
  { schedule := example_schedule, name := "LL Multi Node" }

/-- ldf_multinode (lines 253-270): returns the hard-coded example schedule. -/
def ldf_multinode (_application_data : ApplicationData) (_platform_data : PlatformData) :
    Schedule :=
  { schedule := example_schedule, name := "LDF Multi Node" }

/-! ### Spec-side property used by claim C3 (spec section 8): message
separation. Same node: receiver starts no earlier than the sender ends.
Different nodes: additionally separated by the resolved link delay. -/

/-- The separation property claimed for every message over a schedule. -/
def messageSeparationOK (links : List Link) (messages : List Message)
    (sched : List ScheduleEntry) : Prop :=
  ∀ m ∈ messages, ∀ es ∈ sched, ∀ er ∈ sched,
    es.task_id = m.sender → er.task_id = m.receiver →
    (es.node_id = er.node_id → es.end_time ≤ er.start_time) ∧
    (es.node_id ≠ er.node_id →
      es.end_time + find_link_delay links es.node_id er.node_id ≤ er.start_time)

instance (links : List Link) (messages : List Message) (sched : List ScheduleEntry) :
    Decidable (messageSeparationOK links messages sched) := by
  unfold messageSeparationOK; infer_instance

/-! ### Derived notions used to state and prove the invariants -/

/-- The ids of a task list, in order. -/
def taskIds (tasks : List Task) : List Nat := tasks.map (fun t => t.id)

/-- The task ids of a schedule, in order. -/
def schedIds (sched : List ScheduleEntry) : List Nat := sched.map (fun e => e.task_id)

/-- The ids of a node list, in order. -/
def nodeIds (nodes : List Node) : List Nat := nodes.map (fun n => n.id)

/-- Number of messages into tid whose sender is not in done: the value the
in-degree dict holds for tid once the tasks listed in done are scheduled. -/
def inCount (messages : List Message) (done : List Nat) (tid : Nat) : Nat :=
  (messages.filter (fun m => m.receiver == tid && !(done.contains m.sender))).length

/-- The entry list runs back-to-back from time t0 to time t1. -/
def chainTimes : Int → List ScheduleEntry → Int → Prop
  | t0, [], t1 => t1 = t0
  | t0, e :: rest, t1 => e.start_time = t0 ∧ chainTimes e.end_time rest t1

/-- Same-node message separation: for every message, a receiver entry on the
same node as the sender entry starts no earlier than the sender ends. -/
def sameNodeSeparationOK (messages : List Message) (sched : List ScheduleEntry) : Prop :=
  ∀ m ∈ messages, ∀ es ∈ sched, ∀ er ∈ sched,
    es.task_id = m.sender → er.task_id = m.receiver → es.node_id = er.node_id →
    es.end_time ≤ er.start_time

/-- Comparison of schedule entries by start time. -/
def startLe : ScheduleEntry → ScheduleEntry → Prop :=
  fun a b => a.start_time ≤ b.start_time

instance : DecidableRel startLe :=
  fun a b => inferInstanceAs (Decidable (a.start_time ≤ b.start_time))

instance : IsTrans ScheduleEntry startLe :=
  ⟨fun _ _ _ hab hbc => le_trans hab hbc⟩

/-- Stable sort of schedule entries by start time (spec section 8 phrasing
"sorting entries by start_time"). -/
def startSort (sched : List ScheduleEntry) : List ScheduleEntry :=
  List.insertionSort startLe sched

/-- rank is a topological ranking of the message graph; such a ranking exists
exactly when the dependency graph induced by the messages is acyclic. -/
def TopoRanked (messages : List Message) (rank : Nat → Nat) : Prop :=
  ∀ m ∈ messages, rank m.sender < rank m.receiver

instance (messages : List Message) (rank : Nat → Nat) :
    Decidable (TopoRanked messages rank) := by
  unfold TopoRanked; infer_instance

/-- Well-formed application data per spec section 6: unique task ids, every
message endpoint references an existing task, nonnegative wcet. -/
def WellFormedApp (app : ApplicationData) : Prop :=
  (taskIds app.tasks).Nodup
  ∧ (∀ m ∈ app.messages, m.sender ∈ taskIds app.tasks)
  ∧ (∀ m ∈ app.messages, m.receiver ∈ taskIds app.tasks)
  ∧ (∀ t ∈ app.tasks, 0 ≤ t.wcet)

instance (app : ApplicationData) : Decidable (WellFormedApp app) := by
  unfold WellFormedApp; infer_instance

/-- A task's optional node hint references an existing node or is the falsy
id 0 (ordinary tasks carry no hint at all). -/
def HintOK (nodes : List Node) (t : Task) : Prop :=
  ∀ h, t.node_hint = some h → h = 0 ∨ h ∈ nodeIds nodes

instance (nodes : List Node) (t : Task) : Decidable (HintOK nodes t) :=
  match hh : t.node_hint with
  | none => .isTrue (by intro h hcontra; rw [hh] at hcontra; cases hcontra)
  | some x =>
    decidable_of_iff (x = 0 ∨ x ∈ nodeIds nodes)
      (by constructor
          · intro hx h hsome; rw [hh] at hsome; cases hsome; exact hx
          · intro hall; exact hall x hh)

/-- Well-formed platform data for an application: at least one node, and
every task hint references an existing node (or is the falsy id 0). -/
def WellFormedPlat (app : ApplicationData) (plat : PlatformData) : Prop :=
  plat.nodes ≠ []
  ∧ ∀ t ∈ app.tasks, HintOK plat.nodes t

instance (app : ApplicationData) (plat : PlatformData) :
    Decidable (WellFormedPlat app plat) := by
  unfold WellFormedPlat; infer_instance

/-- What the dependent-release loop does to the in-degree dict and the ready
queue: every dependency count drops by its multiplicity among deps, and the
newly ready tasks are exactly the dependents whose count reached zero. -/
structure ReleaseSpec (tasks : List Task) (deps : List Nat) (d d2 : List (Nat × Int))
    (newly : List Task) : Prop where
  keys : d2.map Prod.fst = d.map Prod.fst
  values : ∀ tid v, dictGet? d tid = some v →
    dictGet? d2 tid = some (v - (deps.count tid : Int))
  mem : ∀ t2, t2 ∈ newly ↔ ∃ tid, tid ∈ deps ∧
    tasks.find? (fun t => t.id == tid) = some t2 ∧ dictGet? d2 tid = some 0
  nodupNew : (taskIds newly).Nodup

/-- The dependency-tracking invariant shared by all three scheduling loops:
the ready queue draws from ts, no id is both scheduled and queued, the
in-degree dict holds exactly the number of unscheduled predecessors, and an
id is scheduled-or-ready exactly when that number is zero. -/
structure CoreInv (messages : List Message) (ts : List Task) (q : List Task)
    (d : List (Nat × Int)) (sched : List ScheduleEntry) : Prop where
  qmem : ∀ t ∈ q, t ∈ ts
  nodupIds : (schedIds sched ++ taskIds q).Nodup
  schedSub : ∀ tid ∈ schedIds sched, tid ∈ taskIds ts
  keysMem : ∀ k, (dictGet? d k).isSome ↔ k ∈ taskIds ts
  values : ∀ tid ∈ taskIds ts,
    dictGet? d tid = some (inCount messages (schedIds sched) tid : Int)
  ready : ∀ tid ∈ taskIds ts,
    (tid ∈ schedIds sched ∨ tid ∈ taskIds q) ↔ inCount messages (schedIds sched) tid = 0

/-- Full invariant of the single-node loops: core plus clock and timing. -/
structure SNInv (messages : List Message) (ts : List Task) (q : List Task)
    (d : List (Nat × Int)) (time : Int) (sched : List ScheduleEntry) : Prop where
  core : CoreInv messages ts q d sched
  timeBound : ∀ e ∈ sched, e.end_time ≤ time
  chain : chainTimes 0 sched time
  entries : ∀ e ∈ sched, e.node_id = 1 ∧ ∃ t, t ∈ ts ∧ t.id = e.task_id ∧
    e.end_time = e.start_time + t.wcet ∧ e.deadline = t.deadline
  prec : ∀ m ∈ messages, ∀ es ∈ sched, ∀ er ∈ sched,
    es.task_id = m.sender → er.task_id = m.receiver → es.end_time ≤ er.start_time

/-- Full invariant of the multi-node loop: core plus per-node clocks. -/
structure MNInv (messages : List Message) (ts : List Task) (nodes : List Node)
    (q : List Task) (d : List (Nat × Int)) (nt : List (Nat × Int))
    (sched : List ScheduleEntry) : Prop where
  core : CoreInv messages ts q d sched
  ntKeysNodup : (nt.map Prod.fst).Nodup
  ntKeysMem : ∀ k, (dictGet? nt k).isSome ↔ k ∈ nodeIds nodes
  clockBound : ∀ e ∈ sched, ∃ v, dictGet? nt e.node_id = some v ∧ e.end_time ≤ v
  prec : ∀ m ∈ messages, ∀ es ∈ sched, ∀ er ∈ sched,
    es.task_id = m.sender → er.task_id = m.receiver → es.node_id = er.node_id →
    es.end_time ≤ er.start_time

/-! ### Concrete inputs used by individual claims -/

/-- Cyclic dependency: task 1 depends on task 2 and vice versa. -/
def c1app : ApplicationData :=
  { tasks := [ { id := 1, wcet := 1, deadline := 1 }, { id := 2, wcet := 1, deadline := 2 } ],
    messages := [ { sender := 1, receiver := 2 }, { sender := 2, receiver := 1 } ] }

/-- A two-node platform. -/
def c1plat : PlatformData :=
  { nodes := [ { id := 1 }, { id := 2 } ], links := [] }

/-- Message 1 -> 2 whose tasks end up on different nodes; link delay 7. -/
def c3app : ApplicationData :=
  { tasks := [ { id := 1, wcet := 10, deadline := 1 }, { id := 2, wcet := 5, deadline := 2 } ],
    messages := [ { sender := 1, receiver := 2 } ] }

/-- Two nodes with a delayed link from node 1 to node 2. -/
def c3plat : PlatformData :=
  { nodes := [ { id := 1 }, { id := 2 } ],
    links := [ { start_node := 1, end_node := 2, link_delay := 7 } ] }

/-- The schedule edf_multinode produces on c3app/c3plat. -/
def c3sched : List ScheduleEntry :=
  [ { task_id := 1, node_id := 1, start_time := 0, end_time := 10, deadline := 1 },
    { task_id := 2, node_id := 2, start_time := 0, end_time := 5, deadline := 2 } ]

/-- Two independent tasks with equal deadlines, the larger id listed first. -/
def c4app : ApplicationData :=
  { tasks := [ { id := 2, wcet := 1, deadline := 10 }, { id := 1, wcet := 1, deadline := 10 } ],
    messages := [] }

/-- One task, so the first scheduling step exposes the node choice. -/
def c5app : ApplicationData :=
  { tasks := [ { id := 1, wcet := 5, deadline := 10 } ], messages := [] }

/-- Nodes listed in descending id order, all clocks equal (0). -/
def c5plat : PlatformData :=
  { nodes := [ { id := 2 }, { id := 1 } ], links := [] }

/-- Tasks listed in ascending deadline order, so the LDF in-place sort
reorders the caller-owned list. -/
def c7app : ApplicationData :=
  { tasks := [ { id := 1, wcet := 1, deadline := 100 }, { id := 2, wcet := 1, deadline := 200 } ],
    messages := [] }

/-- Tasks listed in descending deadline order, so the EDF in-place sort
reorders the caller-owned list. -/
def c7appEdf : ApplicationData :=
  { tasks := [ { id := 1, wcet := 1, deadline := 200 }, { id := 2, wcet := 1, deadline := 100 } ],
    messages := [] }

/-- A small application used to witness determinism. -/
def c8app : ApplicationData :=
  { tasks := [ { id := 1, wcet := 2, deadline := 9 }, { id := 2, wcet := 3, deadline := 5 } ],
    messages := [ { sender := 2, receiver := 1 } ] }

/-- A one-node platform used to witness determinism. -/
def c8plat : PlatformData :=
  { nodes := [ { id := 1 } ], links := [] }

/-- A small acyclic application with one dependency, used as witness input. -/
def c2app : ApplicationData :=
  { tasks := [ { id := 1, wcet := 2, deadline := 9 }, { id := 2, wcet := 3, deadline := 5 } ],
    messages := [ { sender := 2, receiver := 1 } ] }

/-- A two-node platform used as witness input. -/
def c2plat : PlatformData :=
  { nodes := [ { id := 1 }, { id := 2 } ], links := [] }

/-- A topological rank for c2app (message 2 -> 1). -/
def c2rank : Nat → Nat := fun tid => if tid = 2 then 0 else 1

/-- Witness input for the amended C3: same dependency, one node. -/
def c3app2 : ApplicationData :=
  { tasks := [ { id := 1, wcet := 2, deadline := 9 }, { id := 2, wcet := 3, deadline := 5 } ],
    messages := [ { sender := 2, receiver := 1 } ] }

/-- One-node platform for the amended C3 witness. -/
def c3plat2 : PlatformData :=
  { nodes := [ { id := 1 } ], links := [] }

/-- Witness input for C6: three tasks, one dependency. -/
def c6app : ApplicationData :=
  { tasks := [ { id := 1, wcet := 4, deadline := 9 }, { id := 2, wcet := 3, deadline := 5 },
               { id := 3, wcet := 1, deadline := 7 } ],
    messages := [ { sender := 2, receiver := 3 } ] }

/-- A topological rank for c6app (message 2 -> 3). -/
def c6rank : Nat → Nat := fun tid => if tid = 2 then 0 else 1

/-- Witness node-time dict for the amended C5: node 2 listed first, equal clocks. -/
def c5nt : List (Nat × Int) := [(2, 0), (1, 0)]

/-- A message whose sender id 99 is not a task id. -/
def c9appSender : ApplicationData :=
  { tasks := [ { id := 1, wcet := 1, deadline := 1 } ],
    messages := [ { sender := 99, receiver := 1 } ] }

/-- A message whose receiver id 99 is not a task id. -/
def c9appReceiver : ApplicationData :=
  { tasks := [ { id := 1, wcet := 1, deadline := 1 } ],
    messages := [ { sender := 1, receiver := 99 } ] }

/-- A one-node platform for the C9 runs. -/
def c9plat : PlatformData :=
  { nodes := [ { id := 1 } ], links := [] }

/-! ### Dictionary lemmas -/

theorem dictGet?_dictSet_self (d : List (Nat × Int)) (k : Nat) (v : Int) :
    dictGet? (dictSet d k v) k = some v := by
  induction d with
  | nil => simp [dictSet, dictGet?]
  | cons p rest ih =>
    by_cases h : p.1 = k
    · simp [dictSet, h, dictGet?]
    · rw [dictSet, if_neg h]
      show dictGet? (p :: dictSet rest k v) k = some v
      unfold dictGet?
      rw [List.find?_cons_of_neg _ (by simpa using h)]
      exact ih

theorem dictGet?_dictSet_ne (d : List (Nat × Int)) (k k2 : Nat) (v : Int) (h : k2 ≠ k) :
    dictGet? (dictSet d k v) k2 = dictGet? d k2 := by
  induction d with
  | nil => simp [dictSet, dictGet?, List.find?_cons_of_neg, Ne.symm h]
  | cons p rest ih =>
    by_cases hp : p.1 = k
    · rw [dictSet, if_pos hp]
      unfold dictGet?
      rw [List.find?_cons_of_neg _ (by simpa using Ne.symm h),
        List.find?_cons_of_neg _ (by simp [hp]; exact fun hc => (h (hc ▸ hp ▸ rfl)).elim)]
    · rw [dictSet, if_neg hp]
      by_cases hp2 : p.1 = k2
      · unfold dictGet?
        rw [List.find?_cons_of_pos _ (by simpa using hp2),
          List.find?_cons_of_pos _ (by simpa using hp2)]
      · unfold dictGet?
        rw [List.find?_cons_of_neg _ (by simpa using hp2),
          List.find?_cons_of_neg _ (by simpa using hp2)]
        exact ih

theorem dictSet_map_fst (d : List (Nat × Int)) (k : Nat) (v : Int) :
    (dictSet d k v).map Prod.fst =
      if k ∈ d.map Prod.fst then d.map Prod.fst else d.map Prod.fst ++ [k] := by
  induction d with
  | nil => simp [dictSet]
  | cons p rest ih =>
    by_cases h : p.1 = k
    · simp [dictSet, h]
    · simp only [dictSet, if_neg h, List.map_cons, ih]
      by_cases hk : k ∈ rest.map Prod.fst
      · simp [hk, Ne.symm h]
      · simp [hk, Ne.symm h]

theorem dictGet?_isSome_iff (d : List (Nat × Int)) (k : Nat) :
    (dictGet? d k).isSome ↔ k ∈ d.map Prod.fst := by
  induction d with
  | nil => simp [dictGet?]
  | cons p rest ih =>
    by_cases h : p.1 = k
    · unfold dictGet?
      rw [List.find?_cons_of_pos _ (by simpa using h)]
      simp [h]
    · unfold dictGet?
      rw [List.find?_cons_of_neg _ (by simpa using h)]
      simp only [List.map_cons, List.mem_cons, Ne.symm h, false_or]
      exact ih

theorem dictGet?_eq_some_of_mem (d : List (Nat × Int)) (k : Nat) (v : Int)
    (hnd : (d.map Prod.fst).Nodup) (hmem : (k, v) ∈ d) : dictGet? d k = some v := by
  induction d with
  | nil => cases hmem
  | cons p rest ih =>
    rcases List.mem_cons.mp hmem with hmem | hmem
    · subst hmem
      unfold dictGet?
      rw [List.find?_cons_of_pos _ (by simp)]
      rfl
    · have hk : p.1 ≠ k := by
        intro hc
        have hnotin : p.1 ∉ rest.map Prod.fst := (List.nodup_cons.mp hnd).1
        exact hnotin (hc ▸ List.mem_map_of_mem Prod.fst hmem)
      unfold dictGet?
      rw [List.find?_cons_of_neg _ (by simpa using hk)]
      exact ih (List.nodup_cons.mp hnd).2 hmem

/-! ### Lookup of a task by id -/

theorem find?_task_eq {tasks : List Task} {tid : Nat} {t : Task}
    (h : tasks.find? (fun t2 => t2.id == tid) = some t) : t ∈ tasks ∧ t.id = tid :=
  ⟨List.mem_of_find?_eq_some h, by simpa using List.find?_some h⟩

theorem find?_task_isSome {tasks : List Task} {tid : Nat} (h : tid ∈ taskIds tasks) :
    ∃ t, tasks.find? (fun t2 => t2.id == tid) = some t := by
  rcases List.mem_map.mp h with ⟨t, ht, hid⟩
  have : (tasks.find? (fun t2 => t2.id == tid)).isSome :=
    List.find?_isSome.mpr ⟨t, ht, by simp [hid]⟩
  exact Option.isSome_iff_exists.mp this

/-! ### Counting unsatisfied dependencies -/

theorem inCount_ne_zero_iff (messages : List Message) (done : List Nat) (tid : Nat) :
    inCount messages done tid ≠ 0 ↔
      ∃ m ∈ messages, m.receiver = tid ∧ m.sender ∉ done := by
  constructor
  · intro h
    have hne : messages.filter (fun m => m.receiver == tid && !(done.contains m.sender)) ≠ [] := by
      intro hc
      exact h (by unfold inCount; rw [hc]; rfl)
    rcases List.exists_mem_of_ne_nil _ hne with ⟨m, hm⟩
    have hmf := List.mem_filter.mp hm
    refine ⟨m, hmf.1, ?_, ?_⟩
    · have := hmf.2
      simp only [Bool.and_eq_true, beq_iff_eq] at this
      exact this.1
    · have := hmf.2
      simp only [Bool.and_eq_true, Bool.not_eq_true'] at this
      simpa using this.2
  · rintro ⟨m, hm, hr, hs⟩ hc
    have hmem : m ∈ messages.filter (fun m => m.receiver == tid && !(done.contains m.sender)) :=
      List.mem_filter.mpr ⟨hm, by simp [hr, hs]⟩
    rw [inCount, List.length_eq_zero] at hc
    rw [hc] at hmem
    cases hmem

theorem inCount_zero_iff (messages : List Message) (done : List Nat) (tid : Nat) :
    inCount messages done tid = 0 ↔
      ∀ m ∈ messages, m.receiver = tid → m.sender ∈ done := by
  rw [← not_ne_iff, inCount_ne_zero_iff]
  push_neg
  constructor
  · intro h m hm hr
    exact h m hm hr
  · intro h m hm hr
    exact h m hm hr

/-! ### Adjacency and counting lemmas -/

theorem adjacents_cons (m : Message) (messages : List Message) (x : Nat) :
    adjacents (m :: messages) x =
      if m.sender = x then m.receiver :: adjacents messages x else adjacents messages x := by
  unfold adjacents
  rw [List.filter_cons]
  by_cases h : m.sender = x
  · simp [h]
  · simp [h]

theorem mem_adjacents_iff (messages : List Message) (x tid : Nat) :
    tid ∈ adjacents messages x ↔ ∃ m ∈ messages, m.sender = x ∧ m.receiver = tid := by
  unfold adjacents
  simp only [List.mem_map, List.mem_filter, beq_iff_eq]
  constructor
  · rintro ⟨m, ⟨hm, hs⟩, hr⟩
    exact ⟨m, hm, hs, hr⟩
  · rintro ⟨m, hm, hs, hr⟩
    exact ⟨m, ⟨hm, hs⟩, hr⟩

theorem inCount_cons (m : Message) (messages : List Message) (done : List Nat) (tid : Nat) :
    inCount (m :: messages) done tid =
      (if m.receiver = tid ∧ m.sender ∉ done then 1 else 0) + inCount messages done tid := by
  unfold inCount
  rw [List.filter_cons]
  by_cases hc : (m.receiver == tid && !(done.contains m.sender)) = true
  · rw [if_pos hc, List.length_cons]
    have hp : m.receiver = tid ∧ m.sender ∉ done := by
      simp only [Bool.and_eq_true, beq_iff_eq, Bool.not_eq_true'] at hc
      exact ⟨hc.1, by simpa using hc.2⟩
    rw [if_pos hp]
    omega
  · rw [if_neg hc]
    have hp : ¬(m.receiver = tid ∧ m.sender ∉ done) := by
      rintro ⟨ha, hb⟩
      exact hc (by simp [ha, hb])
    rw [if_neg hp]
    omega

theorem inCount_snoc (messages : List Message) (done : List Nat) (x tid : Nat)
    (hx : x ∉ done) :
    inCount messages done tid =
      inCount messages (done ++ [x]) tid + (adjacents messages x).count tid := by
  induction messages with
  | nil => simp [inCount, adjacents]
  | cons m rest ih =>
    rw [inCount_cons, inCount_cons, adjacents_cons]
    by_cases hsx : m.sender = x
    · rw [if_pos hsx, List.count_cons]
      by_cases hrecv : m.receiver = tid
      · rw [if_pos ⟨hrecv, hsx ▸ hx⟩,
          if_neg (by rintro ⟨h1, h2⟩; exact h2 (by simp [hsx]))]
        have hbeq : (m.receiver == tid) = true := by simp [hrecv]
        rw [hbeq, if_pos rfl]
        omega
      · rw [if_neg (by rintro ⟨h1, h2⟩; exact hrecv h1),
          if_neg (by rintro ⟨h1, h2⟩; exact hrecv h1)]
        have hbeq : (m.receiver == tid) = false := by simp [hrecv]
        rw [hbeq]
        simp only [Bool.false_eq_true, if_false]
        omega
    · rw [if_neg hsx]
      have hBA : (if m.receiver = tid ∧ m.sender ∉ done ++ [x] then 1 else 0) =
          (if m.receiver = tid ∧ m.sender ∉ done then (1 : Nat) else 0) := by
        simp [hsx]
      rw [hBA]
      omega

/-! ### Chain lemmas -/

theorem chainTimes_snoc {t0 t1 : Int} {sched : List ScheduleEntry} (e : ScheduleEntry)
    (h : chainTimes t0 sched t1) (he : e.start_time = t1) :
    chainTimes t0 (sched ++ [e]) e.end_time := by
  induction sched generalizing t0 with
  | nil => exact ⟨he.trans h, rfl⟩
  | cons f rest ih => exact ⟨h.1, ih h.2⟩

theorem chainTimes_chain {sched : List ScheduleEntry} :
    ∀ {t0 t1 : Int}, chainTimes t0 sched t1 →
      List.Chain' (fun a b => b.start_time = a.end_time) sched := by
  induction sched with
  | nil => intro t0 t1 _; exact List.chain'_nil
  | cons e rest ih =>
    intro t0 t1 h
    cases rest with
    | nil => exact List.chain'_singleton e
    | cons f rest2 =>
      exact List.chain'_cons.mpr ⟨h.2.1, ih h.2⟩

theorem chainTimes_pairwise_start {sched : List ScheduleEntry} :
    ∀ {t0 t1 : Int}, chainTimes t0 sched t1 →
      (∀ e ∈ sched, e.start_time ≤ e.end_time) → List.Pairwise startLe sched := by
  have hchain : ∀ {t0 t1 : Int}, chainTimes t0 sched t1 →
      (∀ e ∈ sched, e.start_time ≤ e.end_time) → List.Chain' startLe sched := by
    induction sched with
    | nil => intro t0 t1 _ _; exact List.chain'_nil
    | cons e rest ih =>
      intro t0 t1 h hse
      cases rest with
      | nil => exact List.chain'_singleton e
      | cons f rest2 =>
        refine List.chain'_cons.mpr ⟨?_, ih h.2 (fun e2 he2 => hse e2 (List.mem_cons_of_mem _ he2))⟩
        have h1 : e.start_time ≤ e.end_time := hse e (List.mem_cons_self _ _)
        have h2 : f.start_time = e.end_time := h.2.1
        unfold startLe
        omega
  intro t0 t1 h hse
  exact List.chain'_iff_pairwise.mp (hchain h hse)

/-! ### Properties of the first-minimum scan -/

theorem minPairGo_spec (rest : List (Nat × Int)) :
    ∀ (k : Nat) (v : Int),
      ∃ l1 l2, (k, v) :: rest = l1 ++ minPairGo k v rest :: l2
        ∧ (∀ p ∈ l1, (minPairGo k v rest).2 < p.2)
        ∧ (∀ p ∈ (k, v) :: rest, (minPairGo k v rest).2 ≤ p.2) := by
  induction rest with
  | nil =>
    intro k v
    exact ⟨[], [], rfl, by simp, by simp [minPairGo]⟩
  | cons p rest ih =>
    intro k v
    rcases p with ⟨k2, v2⟩
    by_cases h : v2 < v
    · rw [minPairGo, if_pos h]
      obtain ⟨l1, l2, heq, hlt, hle⟩ := ih k2 v2
      refine ⟨(k, v) :: l1, l2, by rw [List.cons_append, ← heq], ?_, ?_⟩
      · intro p hp
        rcases List.mem_cons.mp hp with hp | hp
        · subst hp
          have hv2 : (minPairGo k2 v2 rest).2 ≤ v2 := hle (k2, v2) (List.mem_cons_self _ _)
          exact lt_of_le_of_lt hv2 h
        · exact hlt p hp
      · intro p hp
        rcases List.mem_cons.mp hp with hp | hp
        · subst hp
          have hv2 : (minPairGo k2 v2 rest).2 ≤ v2 := hle (k2, v2) (List.mem_cons_self _ _)
          exact le_of_lt (lt_of_le_of_lt hv2 h)
        · exact hle p hp
    · rw [minPairGo, if_neg h]
      obtain ⟨l1, l2, heq, hlt, hle⟩ := ih k v
      have hvv2 : v ≤ v2 := le_of_not_lt h
      have hr : (minPairGo k v rest).2 ≤ v := hle (k, v) (List.mem_cons_self _ _)
      cases l1 with
      | nil =>
        have hhead : minPairGo k v rest = (k, v) := by
          have h2 := heq
          rw [List.nil_append] at h2
          exact ((List.cons_eq_cons.mp h2).1).symm
        refine ⟨[], (k2, v2) :: rest, by rw [List.nil_append, hhead], by simp, ?_⟩
        intro p hp
        rcases List.mem_cons.mp hp with hp | hp
        · subst hp
          rw [hhead]
        · rcases List.mem_cons.mp hp with hp | hp
          · subst hp
            exact le_trans hr hvv2
          · exact hle p (List.mem_cons_of_mem _ hp)
      | cons q l1b =>
        have hq : q = (k, v) := by
          have h2 := heq
          rw [List.cons_append] at h2
          exact ((List.cons_eq_cons.mp h2).1).symm
        have htail : rest = l1b ++ minPairGo k v rest :: l2 := by
          have h2 := heq
          rw [List.cons_append] at h2
          exact (List.cons_eq_cons.mp h2).2
        have hkv : (k, v) ∈ q :: l1b := by
          rw [hq]
          exact List.mem_cons_self _ _
        have hltv : (minPairGo k v rest).2 < v := hlt (k, v) hkv
        refine ⟨(k, v) :: (k2, v2) :: l1b, l2, ?_, ?_, ?_⟩
        · rw [List.cons_append, List.cons_append, ← htail]
        · intro p hp
          rcases List.mem_cons.mp hp with hp | hp
          · subst hp
            exact hltv
          · rcases List.mem_cons.mp hp with hp | hp
            · subst hp
              exact lt_of_lt_of_le hltv hvv2
            · exact hlt p (List.mem_cons_of_mem _ hp)
        · intro p hp
          rcases List.mem_cons.mp hp with hp | hp
          · subst hp
            exact hr.trans (le_refl v)
          · rcases List.mem_cons.mp hp with hp | hp
            · subst hp
              exact le_trans hr hvv2
            · exact hle p (List.mem_cons_of_mem _ hp)

theorem minPair_spec (nt : List (Nat × Int)) (k : Nat) (v : Int)
    (h : minPair nt = some (k, v)) :
    (k, v) ∈ nt ∧ ∀ p ∈ nt, v ≤ p.2 := by
  cases nt with
  | nil => cases h
  | cons p rest =>
    rcases p with ⟨k0, v0⟩
    have hgo : minPairGo k0 v0 rest = (k, v) := by
      have := h
      rw [minPair] at this
      exact Option.some.inj this
    obtain ⟨l1, l2, heq, hlt, hle⟩ := minPairGo_spec rest k0 v0
    rw [hgo] at heq hlt hle
    constructor
    · rw [heq]
      exact List.mem_append_right l1 (List.mem_cons_self _ _)
    · intro p hp
      exact hle p hp

/-! ### Characterization of the single-node release loop -/

theorem releaseDeps_spec (tasks : List Task) :
    ∀ (deps : List Nat) (d : List (Nat × Int)) (acc : List Task),
      (∀ tid ∈ deps, ∃ v, dictGet? d tid = some v ∧ ((deps.count tid : Int) ≤ v)) →
      (∀ tid ∈ deps, ∃ t, tasks.find? (fun t2 => t2.id == tid) = some t) →
      ∃ d2 newly, releaseDeps tasks deps d acc = .ok (d2, acc ++ newly)
        ∧ ReleaseSpec tasks deps d d2 newly := by
  intro deps
  induction deps with
  | nil =>
    intro d acc _ _
    refine ⟨d, [], by simp [releaseDeps], ?_⟩
    refine ⟨rfl, ?_, ?_, by simp [taskIds]⟩
    · intro tid v hv
      rw [hv]
      simp
    · intro t2
      simp
  | cons dep rest ih =>
    intro d acc hcnt hfind
    obtain ⟨v, hv, hvc⟩ := hcnt dep (List.mem_cons_self _ _)
    have hcount1 : (1 : Int) ≤ ((dep :: rest).count dep : Int) := by
      rw [List.count_cons_self]
      push_cast
      omega
    have hineq : ((rest.count dep : Int)) ≤ v - 1 := by
      have := hvc
      rw [List.count_cons_self] at this
      push_cast at this
      omega
    have hkeysSet : (dictSet d dep (v - 1)).map Prod.fst = d.map Prod.fst := by
      rw [dictSet_map_fst, if_pos]
      exact (dictGet?_isSome_iff d dep).mp (by rw [hv]; rfl)
    have hcnt2 : ∀ tid ∈ rest, ∃ v2, dictGet? (dictSet d dep (v - 1)) tid = some v2
        ∧ ((rest.count tid : Int) ≤ v2) := by
      intro tid htid
      by_cases hdt : tid = dep
      · subst hdt
        exact ⟨v - 1, dictGet?_dictSet_self d tid (v - 1), hineq⟩
      · obtain ⟨v2, hv2, hv2c⟩ := hcnt tid (List.mem_cons_of_mem _ htid)
        refine ⟨v2, by rw [dictGet?_dictSet_ne d dep tid (v - 1) hdt]; exact hv2, ?_⟩
        rw [List.count_cons_of_ne hdt] at hv2c
        exact hv2c
    have hfind2 : ∀ tid ∈ rest, ∃ t, tasks.find? (fun t2 => t2.id == tid) = some t :=
      fun tid htid => hfind tid (List.mem_cons_of_mem _ htid)
    by_cases hz : v - 1 = 0
    · obtain ⟨t, ht⟩ := hfind dep (List.mem_cons_self _ _)
      have hdepnotin : dep ∉ rest := by
        rw [← List.count_eq_zero]
        omega
      have hcr : rest.count dep = 0 := List.count_eq_zero.mpr hdepnotin
      obtain ⟨d2, newlyR, heq, hspec⟩ := ih (dictSet d dep (v - 1)) (acc ++ [t]) hcnt2 hfind2
      refine ⟨d2, t :: newlyR, ?_, ?_, ?_, ?_, ?_⟩
      · show releaseDeps tasks (dep :: rest) d acc = _
        rw [releaseDeps, hv]
        simp only [hz, if_pos, ht]
        rw [hz] at heq
        rw [heq]
        simp
      · exact hspec.keys.trans hkeysSet
      · intro tid v0 hv0
        by_cases hdt : tid = dep
        · subst hdt
          have hveq : v0 = v := by
            rw [hv] at hv0
            exact (Option.some.inj hv0).symm
          have := hspec.values tid (v - 1) (dictGet?_dictSet_self d tid (v - 1))
          rw [this, hveq]
          congr 1
          rw [List.count_cons_self, hcr]
          push_cast
          omega
        · have hget : dictGet? (dictSet d dep (v - 1)) tid = some v0 := by
            rw [dictGet?_dictSet_ne d dep tid (v - 1) hdt]
            exact hv0
          have := hspec.values tid v0 hget
          rw [this]
          congr 1
          rw [List.count_cons_of_ne hdt]
      · intro t2
        constructor
        · intro ht2
          rcases List.mem_cons.mp ht2 with ht2 | ht2
          · subst ht2
            refine ⟨dep, List.mem_cons_self _ _, ht, ?_⟩
            have := hspec.values dep (v - 1) (dictGet?_dictSet_self d dep (v - 1))
            rw [this, hcr]
            norm_num
            omega
          · obtain ⟨tid, htid, hfnd, hget⟩ := (hspec.mem t2).mp ht2
            exact ⟨tid, List.mem_cons_of_mem _ htid, hfnd, hget⟩
        · rintro ⟨tid, htid, hfnd, hget⟩
          rcases List.mem_cons.mp htid with htid | htid
          · subst htid
            have : t2 = t := by
              rw [ht] at hfnd
              exact (Option.some.inj hfnd).symm
            rw [this]
            exact List.mem_cons_self _ _
          · exact List.mem_cons_of_mem _ ((hspec.mem t2).mpr ⟨tid, htid, hfnd, hget⟩)
      · have htid : t.id = dep := (find?_task_eq ht).2
        have hnotin : t.id ∉ taskIds newlyR := by
          intro hc
          rcases List.mem_map.mp hc with ⟨t3, ht3, hid3⟩
          obtain ⟨tid3, htid3, hfnd3, _⟩ := (hspec.mem t3).mp ht3
          have hti3 : t3.id = tid3 := (find?_task_eq hfnd3).2
          have hchain : dep = tid3 := by rw [← htid, ← hid3, hti3]
          exact hdepnotin (hchain ▸ htid3)
        have : taskIds (t :: newlyR) = t.id :: taskIds newlyR := rfl
        rw [this, List.nodup_cons]
        exact ⟨hnotin, hspec.nodupNew⟩
    · obtain ⟨d2, newlyR, heq, hspec⟩ := ih (dictSet d dep (v - 1)) acc hcnt2 hfind2
      refine ⟨d2, newlyR, ?_, ?_, ?_, ?_, hspec.nodupNew⟩
      · rw [releaseDeps, hv]
        simp only [hz, if_neg, if_false]
        exact heq
      · exact hspec.keys.trans hkeysSet
      · intro tid v0 hv0
        by_cases hdt : tid = dep
        · subst hdt
          have hveq : v0 = v := by
            rw [hv] at hv0
            exact (Option.some.inj hv0).symm
          have := hspec.values tid (v - 1) (dictGet?_dictSet_self d tid (v - 1))
          rw [this, hveq]
          congr 1
          rw [List.count_cons_self]
          push_cast
          omega
        · have hget : dictGet? (dictSet d dep (v - 1)) tid = some v0 := by
            rw [dictGet?_dictSet_ne d dep tid (v - 1) hdt]
            exact hv0
          have := hspec.values tid v0 hget
          rw [this]
          congr 1
          rw [List.count_cons_of_ne hdt]
      · intro t2
        constructor
        · intro ht2
          obtain ⟨tid, htid, hfnd, hget⟩ := (hspec.mem t2).mp ht2
          exact ⟨tid, List.mem_cons_of_mem _ htid, hfnd, hget⟩
        · rintro ⟨tid, htid, hfnd, hget⟩
          rcases List.mem_cons.mp htid with htid | htid
          · subst htid
            by_cases hin : tid ∈ rest
            · exact (hspec.mem t2).mpr ⟨tid, hin, hfnd, hget⟩
            · exfalso
              have hcr : rest.count tid = 0 := List.count_eq_zero.mpr hin
              have := hspec.values tid (v - 1) (dictGet?_dictSet_self d tid (v - 1))
              rw [hget, hcr] at this
              have hval : (0 : Int) = v - 1 - 0 := Option.some.inj this
              omega
          · exact (hspec.mem t2).mpr ⟨tid, htid, hfnd, hget⟩

/-! ### Preservation of the core invariant over one scheduling step -/

theorem CoreInv_release_pre (messages : List Message) (ts : List Task)
    (hrecv : ∀ m ∈ messages, m.receiver ∈ taskIds ts)
    (task : Task) (rest : List Task) (d : List (Nat × Int)) (sched : List ScheduleEntry)
    (inv : CoreInv messages ts (task :: rest) d sched) :
    (∀ tid ∈ adjacents messages task.id, ∃ v, dictGet? d tid = some v
        ∧ (((adjacents messages task.id).count tid : Int) ≤ v))
    ∧ (∀ tid ∈ adjacents messages task.id, ∃ t, ts.find? (fun t2 => t2.id == tid) = some t) := by
  have hx_notin_S : task.id ∉ schedIds sched := by
    have hnd := inv.nodupIds
    rw [List.nodup_append] at hnd
    intro hc
    exact hnd.2.2 hc (by exact List.mem_cons_self _ _)
  constructor
  · intro tid htid
    obtain ⟨m, hm, _, hr⟩ := (mem_adjacents_iff messages task.id tid).mp htid
    have htts : tid ∈ taskIds ts := hr ▸ hrecv m hm
    refine ⟨(inCount messages (schedIds sched) tid : Int), inv.values tid htts, ?_⟩
    have hsplit := inCount_snoc messages (schedIds sched) task.id tid hx_notin_S
    omega
  · intro tid htid
    obtain ⟨m, hm, _, hr⟩ := (mem_adjacents_iff messages task.id tid).mp htid
    exact find?_task_isSome (hr ▸ hrecv m hm)

theorem CoreInv_step (messages : List Message) (ts : List Task)
    (hrecv : ∀ m ∈ messages, m.receiver ∈ taskIds ts)
    (task : Task) (rest : List Task) (d d2 : List (Nat × Int))
    (sched : List ScheduleEntry) (newly : List Task)
    (inv : CoreInv messages ts (task :: rest) d sched)
    (hrel : ReleaseSpec ts (adjacents messages task.id) d d2 newly)
    (e : ScheduleEntry) (he : e.task_id = task.id)
    (q2 : List Task) (hq2 : q2.Perm (rest ++ newly)) :
    CoreInv messages ts q2 d2 (sched ++ [e]) := by
  have htaskts : task ∈ ts := inv.qmem task (List.mem_cons_self _ _)
  have hxts : task.id ∈ taskIds ts := List.mem_map_of_mem _ htaskts
  have hnd := inv.nodupIds
  have hx_notin_S : task.id ∉ schedIds sched := by
    rw [List.nodup_append] at hnd
    intro hc
    exact hnd.2.2 hc (List.mem_cons_self _ _)
  have hS2 : schedIds (sched ++ [e]) = schedIds sched ++ [task.id] := by
    unfold schedIds
    rw [List.map_append]
    simp [he]
  have hq2ids : (taskIds q2).Perm (taskIds rest ++ taskIds newly) := by
    have := hq2.map (fun t => t.id)
    rw [List.map_append] at this
    exact this
  have hsplit : ∀ tid, inCount messages (schedIds sched) tid =
      inCount messages (schedIds sched ++ [task.id]) tid
        + (adjacents messages task.id).count tid :=
    fun tid => inCount_snoc messages (schedIds sched) task.id tid hx_notin_S
  have hvals2 : ∀ tid ∈ taskIds ts, dictGet? d2 tid =
      some (inCount messages (schedIds sched ++ [task.id]) tid : Int) := by
    intro tid htid
    have hv := hrel.values tid _ (inv.values tid htid)
    rw [hv]
    congr 1
    have := hsplit tid
    omega
  -- facts about newly released tasks
  have hnewfacts : ∀ t2 ∈ newly, t2 ∈ ts
      ∧ inCount messages (schedIds sched ++ [task.id]) t2.id = 0
      ∧ t2.id ∉ schedIds sched ∧ t2.id ≠ task.id ∧ t2.id ∉ taskIds rest := by
    intro t2 ht2
    obtain ⟨tid, htid, hfnd, hget⟩ := (hrel.mem t2).mp ht2
    obtain ⟨hmem, hid⟩ := find?_task_eq hfnd
    subst hid
    obtain ⟨m, hm, _, hr⟩ := (mem_adjacents_iff messages task.id t2.id).mp htid
    have htts : t2.id ∈ taskIds ts := hr ▸ hrecv m hm
    have hcount2 : inCount messages (schedIds sched ++ [task.id]) t2.id = 0 := by
      have := hvals2 t2.id htts
      rw [hget] at this
      have hcast : (0 : Int) = (inCount messages (schedIds sched ++ [task.id]) t2.id : Int) :=
        Option.some.inj this
      omega
    have hcountpos : inCount messages (schedIds sched) t2.id ≠ 0 := by
      have hc1 : 0 < (adjacents messages task.id).count t2.id :=
        List.count_pos_iff.mpr htid
      have := hsplit t2.id
      omega
    have hnotready : ¬(t2.id ∈ schedIds sched ∨ t2.id ∈ taskIds (task :: rest)) := by
      intro hc
      exact hcountpos ((inv.ready t2.id htts).mp hc)
    push_neg at hnotready
    have hnr2 : t2.id ∉ taskIds (task :: rest) := hnotready.2
    have : taskIds (task :: rest) = task.id :: taskIds rest := rfl
    rw [this, List.mem_cons] at hnr2
    push_neg at hnr2
    exact ⟨hmem, hcount2, hnotready.1, hnr2.1, hnr2.2⟩
  refine ⟨?_, ?_, ?_, ?_, ?_, ?_⟩
  · -- qmem
    intro t ht
    have := hq2.mem_iff.mp ht
    rcases List.mem_append.mp this with h | h
    · exact inv.qmem t (List.mem_cons_of_mem _ h)
    · exact (hnewfacts t h).1
  · -- nodupIds
    rw [hS2]
    have hperm : (schedIds sched ++ [task.id] ++ taskIds q2).Perm
        ((schedIds sched ++ task.id :: taskIds rest) ++ taskIds newly) := by
      have h1 : (schedIds sched ++ [task.id] ++ taskIds q2).Perm
          (schedIds sched ++ [task.id] ++ (taskIds rest ++ taskIds newly)) :=
        hq2ids.append_left _
      have heq2 : schedIds sched ++ [task.id] ++ (taskIds rest ++ taskIds newly) =
          (schedIds sched ++ task.id :: taskIds rest) ++ taskIds newly := by
        simp
      rw [heq2] at h1
      exact h1
    rw [hperm.nodup_iff]
    rw [List.nodup_append]
    refine ⟨inv.nodupIds, hrel.nodupNew, ?_⟩
    intro tid htid hc
    rcases List.mem_map.mp hc with ⟨t2, ht2, hid2⟩
    have hf := hnewfacts t2 ht2
    rw [hid2] at hf
    rcases List.mem_append.mp htid with h | h
    · exact hf.2.2.1 h
    · rcases List.mem_cons.mp h with h | h
      · exact hf.2.2.2.1 h
      · exact hf.2.2.2.2 h
  · -- schedSub
    intro tid htid
    rw [hS2] at htid
    rcases List.mem_append.mp htid with h | h
    · exact inv.schedSub tid h
    · rw [List.mem_singleton] at h
      exact h ▸ hxts
  · -- keysMem
    intro k
    rw [dictGet?_isSome_iff, hrel.keys, ← dictGet?_isSome_iff]
    exact inv.keysMem k
  · -- values
    intro tid htid
    rw [hS2]
    exact hvals2 tid htid
  · -- ready
    intro tid htid
    rw [hS2]
    constructor
    · intro hc
      rcases hc with hc | hc
      · rcases List.mem_append.mp hc with h | h
        · have h0 : inCount messages (schedIds sched) tid = 0 :=
            (inv.ready tid htid).mp (Or.inl h)
          have := hsplit tid
          omega
        · rw [List.mem_singleton] at h
          subst h
          have h0 : inCount messages (schedIds sched) task.id = 0 :=
            (inv.ready task.id htid).mp (Or.inr (List.mem_map_of_mem _ (List.mem_cons_self _ _)))
          have := hsplit task.id
          omega
      · have := hq2ids.mem_iff.mp hc
        rcases List.mem_append.mp this with h | h
        · have h0 : inCount messages (schedIds sched) tid = 0 :=
            (inv.ready tid htid).mp (Or.inr (by
              have : taskIds (task :: rest) = task.id :: taskIds rest := rfl
              rw [this]
              exact List.mem_cons_of_mem _ h))
          have := hsplit tid
          omega
        · rcases List.mem_map.mp h with ⟨t2, ht2, hid2⟩
          have hf := hnewfacts t2 ht2
          rw [hid2] at hf
          exact hf.2.1
    · intro hc2
      by_cases hc : inCount messages (schedIds sched) tid = 0
      · have := (inv.ready tid htid).mpr hc
        rcases this with h | h
        · exact Or.inl (List.mem_append_left _ h)
        · have hq : taskIds (task :: rest) = task.id :: taskIds rest := rfl
          rw [hq, List.mem_cons] at h
          rcases h with h | h
          · exact Or.inl (List.mem_append_right _ (h ▸ List.mem_singleton_self _))
          · refine Or.inr (hq2ids.mem_iff.mpr (List.mem_append_left _ h))
      · have hdep : tid ∈ adjacents messages task.id := by
          have := hsplit tid
          exact List.count_pos_iff.mp (by omega)
        obtain ⟨t, hfnd⟩ := find?_task_isSome htid
        have hget : dictGet? d2 tid = some 0 := by
          have := hvals2 tid htid
          rw [hc2] at this
          simpa using this
        have ht2new : t ∈ newly := (hrel.mem t).mpr ⟨tid, hdep, hfnd, hget⟩
        have : tid ∈ taskIds newly := by
          have hid : t.id = tid := (find?_task_eq hfnd).2
          exact hid ▸ List.mem_map_of_mem _ ht2new
        exact Or.inr (hq2ids.mem_iff.mpr (List.mem_append_right _ this))

/-! ### Termination: with an empty ready queue and an acyclic graph,
everything has been scheduled -/

theorem CoreInv_terminal (messages : List Message) (ts : List Task)
    (hids : (taskIds ts).Nodup)
    (hsend : ∀ m ∈ messages, m.sender ∈ taskIds ts)
    (rank : Nat → Nat) (hrank : TopoRanked messages rank)
    (d : List (Nat × Int)) (sched : List ScheduleEntry)
    (inv : CoreInv messages ts [] d sched) :
    (schedIds sched).Perm (taskIds ts) := by
  have hall : ∀ n tid, rank tid < n → tid ∈ taskIds ts → tid ∈ schedIds sched := by
    intro n
    induction n with
    | zero => exact fun tid h _ => absurd h (Nat.not_lt_zero _)
    | succ n ih =>
      intro tid hlt htid
      by_contra hni
      have hcount : inCount messages (schedIds sched) tid ≠ 0 := by
        intro hc
        rcases (inv.ready tid htid).mpr hc with h | h
        · exact hni h
        · simp [taskIds] at h
      obtain ⟨m, hm, hr, hs⟩ := (inCount_ne_zero_iff messages (schedIds sched) tid).mp hcount
      have hsts : m.sender ∈ taskIds ts := hsend m hm
      have hrk : rank m.sender < n := by
        have h1 := hrank m hm
        rw [hr] at h1
        omega
      exact hs (ih m.sender hrk hsts)
  have hsub2 : ∀ tid ∈ taskIds ts, tid ∈ schedIds sched :=
    fun tid htid => hall (rank tid + 1) tid (Nat.lt_succ_self _) htid
  have hndS : (schedIds sched).Nodup := by
    have := inv.nodupIds
    simpa [taskIds] using this
  exact (List.perm_ext_iff_of_nodup hndS hids).mpr
    (fun a => ⟨inv.schedSub a, hsub2 a⟩)

/-! ### Full correctness of the single-node loop -/

theorem snLoop_spec (sortQ : List Task → List Task)
    (hsort : ∀ l, (sortQ l).Perm l)
    (messages : List Message) (ts : List Task)
    (hids : (taskIds ts).Nodup)
    (hsend : ∀ m ∈ messages, m.sender ∈ taskIds ts)
    (hrecv : ∀ m ∈ messages, m.receiver ∈ taskIds ts)
    (hw : ∀ t ∈ ts, 0 ≤ t.wcet)
    (rank : Nat → Nat) (hrank : TopoRanked messages rank) :
    ∀ (fuel : Nat) (q : List Task) (d : List (Nat × Int)) (time : Int)
      (sched : List ScheduleEntry),
      SNInv messages ts q d time sched →
      (taskIds ts).length < fuel + sched.length →
      ∃ sched2 time2 d2, snLoop sortQ ts messages fuel q d time sched = .ok (sched2, time2)
        ∧ SNInv messages ts [] d2 time2 sched2
        ∧ (schedIds sched2).Perm (taskIds ts) := by
  intro fuel
  induction fuel with
  | zero =>
    intro q d time sched inv hfuel
    exfalso
    have hndS : (schedIds sched).Nodup := by
      have := inv.core.nodupIds
      rw [List.nodup_append] at this
      exact this.1
    have hsub : schedIds sched ⊆ taskIds ts := fun a ha => inv.core.schedSub a ha
    have hlen : (schedIds sched).length ≤ (taskIds ts).length :=
      (hndS.subperm hsub).length_le
    have hslen : (schedIds sched).length = sched.length := List.length_map _ _
    omega
  | succ fuel ih =>
    intro q d time sched inv hfuel
    cases q with
    | nil =>
      refine ⟨sched, time, d, by rw [snLoop], inv, ?_⟩
      exact CoreInv_terminal messages ts hids hsend rank hrank d sched inv.core
    | cons task rest =>
      have htaskts : task ∈ ts := inv.core.qmem task (List.mem_cons_self _ _)
      have hx_notin_S : task.id ∉ schedIds sched := by
        have := inv.core.nodupIds
        rw [List.nodup_append] at this
        intro hc
        exact this.2.2 hc (List.mem_cons_self _ _)
      obtain ⟨hpre1, hpre2⟩ :=
        CoreInv_release_pre messages ts hrecv task rest d sched inv.core
      obtain ⟨d2, newly, heq2, hrel⟩ :=
        releaseDeps_spec ts (adjacents messages task.id) d [] hpre1 hpre2
      rw [List.nil_append] at heq2
      have hstep : snLoop sortQ ts messages (fuel + 1) (task :: rest) d time sched =
          snLoop sortQ ts messages fuel (sortQ (rest ++ newly)) d2 (time + task.wcet)
            (sched ++ [(⟨task.id, 1, time, time + task.wcet, task.deadline⟩ : ScheduleEntry)]) := by
        rw [snLoop, heq2]
      have hcore2 : CoreInv messages ts (sortQ (rest ++ newly)) d2
          (sched ++ [(⟨task.id, 1, time, time + task.wcet, task.deadline⟩ : ScheduleEntry)]) :=
        CoreInv_step messages ts hrecv task rest d d2 sched newly inv.core hrel
          _ rfl _ (hsort (rest ++ newly))
      have hwt : 0 ≤ task.wcet := hw task htaskts
      have hinv2 : SNInv messages ts (sortQ (rest ++ newly)) d2 (time + task.wcet)
          (sched ++ [(⟨task.id, 1, time, time + task.wcet, task.deadline⟩ : ScheduleEntry)]) := by
        refine ⟨hcore2, ?_, ?_, ?_, ?_⟩
        · intro e he
          rcases List.mem_append.mp he with h | h
          · have := inv.timeBound e h
            omega
          · rw [List.mem_singleton] at h
            subst h
            exact le_refl _
        · exact chainTimes_snoc _ inv.chain rfl
        · intro e he
          rcases List.mem_append.mp he with h | h
          · exact inv.entries e h
          · rw [List.mem_singleton] at h
            subst h
            exact ⟨rfl, task, htaskts, rfl, rfl, rfl⟩
        · intro m hm es hes er her hsid hrid
          rcases List.mem_append.mp hes with hs1 | hs1 <;>
            rcases List.mem_append.mp her with hr1 | hr1
          · exact inv.prec m hm es hs1 er hr1 hsid hrid
          · rw [List.mem_singleton] at hr1
            subst hr1
            exact inv.timeBound es hs1
          · exfalso
            rw [List.mem_singleton] at hs1
            subst hs1
            have hrts : m.receiver ∈ taskIds ts := hrecv m hm
            have hrS : m.receiver ∈ schedIds sched := hrid ▸ List.mem_map_of_mem _ hr1
            have h0 : inCount messages (schedIds sched) m.receiver = 0 :=
              (inv.core.ready m.receiver hrts).mp (Or.inl hrS)
            have := (inCount_zero_iff messages (schedIds sched) m.receiver).mp h0 m hm rfl
            rw [← hsid] at this
            exact hx_notin_S this
          · exfalso
            rw [List.mem_singleton] at hs1 hr1
            subst hs1
            subst hr1
            have hrts : m.receiver ∈ taskIds ts := hrecv m hm
            have hxq : task.id ∈ taskIds (task :: rest) :=
              List.mem_map_of_mem _ (List.mem_cons_self _ _)
            have h0 : inCount messages (schedIds sched) m.receiver = 0 :=
              (inv.core.ready m.receiver hrts).mp (Or.inr (hrid ▸ hxq))
            have := (inCount_zero_iff messages (schedIds sched) m.receiver).mp h0 m hm rfl
            rw [← hsid] at this
            exact hx_notin_S this
      have hfuel2 : (taskIds ts).length < fuel +
          (sched ++ [(⟨task.id, 1, time, time + task.wcet, task.deadline⟩ : ScheduleEntry)]).length := by
        rw [List.length_append]
        simp only [List.length_singleton]
        omega
      obtain ⟨s2, t2, dd2, hrun, hinvF, hperm⟩ := ih _ _ _ _ hinv2 hfuel2
      exact ⟨s2, t2, dd2, by rw [hstep]; exact hrun, hinvF, hperm⟩

/-! ### The initial in-degree and node-time dicts -/

theorem foldl_dictSet_get (keys : List Nat) :
    ∀ (d0 : List (Nat × Int)) (k : Nat),
      dictGet? (keys.foldl (fun d k2 => dictSet d k2 0) d0) k =
        if k ∈ keys then some 0 else dictGet? d0 k := by
  induction keys with
  | nil =>
    intro d0 k
    simp
  | cons k1 rest ih =>
    intro d0 k
    rw [List.foldl_cons, ih (dictSet d0 k1 0) k]
    by_cases hk : k ∈ rest
    · simp [hk]
    · by_cases hk1 : k = k1
      · subst hk1
        simp [hk, dictGet?_dictSet_self]
      · simp [hk, hk1, dictGet?_dictSet_ne _ _ _ _ hk1]

theorem foldl_dictSet_keys_nodup (keys : List Nat) :
    ∀ (d0 : List (Nat × Int)), (d0.map Prod.fst).Nodup →
      (((keys.foldl (fun d k2 => dictSet d k2 0) d0)).map Prod.fst).Nodup := by
  induction keys with
  | nil => intro d0 h; exact h
  | cons k1 rest ih =>
    intro d0 h
    rw [List.foldl_cons]
    refine ih (dictSet d0 k1 0) ?_
    rw [dictSet_map_fst]
    by_cases hk : k1 ∈ d0.map Prod.fst
    · simp [hk, h]
    · rw [if_neg hk, List.nodup_append]
      exact ⟨h, List.nodup_singleton _, by
        intro a ha hb
        rw [List.mem_singleton] at hb
        exact hk (hb ▸ ha)⟩

theorem initIndeg_get (tasks : List Task) (k : Nat) :
    dictGet? (initIndeg tasks) k = if k ∈ taskIds tasks then some 0 else none := by
  have h := foldl_dictSet_get (taskIds tasks) [] k
  unfold taskIds at h
  rw [List.foldl_map] at h
  unfold initIndeg
  rw [h]
  by_cases hk : k ∈ taskIds tasks
  · rw [if_pos (show k ∈ List.map (fun t => t.id) tasks from hk), if_pos hk]
  · rw [if_neg (show k ∉ List.map (fun t => t.id) tasks from hk), if_neg hk]
    simp [dictGet?]

theorem initNodeTime_get (nodes : List Node) (k : Nat) :
    dictGet? (initNodeTime nodes) k = if k ∈ nodeIds nodes then some 0 else none := by
  have h := foldl_dictSet_get (nodeIds nodes) [] k
  unfold nodeIds at h
  rw [List.foldl_map] at h
  unfold initNodeTime
  rw [h]
  by_cases hk : k ∈ nodeIds nodes
  · rw [if_pos (show k ∈ List.map (fun n => n.id) nodes from hk), if_pos hk]
  · rw [if_neg (show k ∉ List.map (fun n => n.id) nodes from hk), if_neg hk]
    simp [dictGet?]

theorem initNodeTime_keys_nodup (nodes : List Node) :
    ((initNodeTime nodes).map Prod.fst).Nodup := by
  have h := foldl_dictSet_keys_nodup (nodeIds nodes) [] (by simp)
  unfold nodeIds at h
  rw [List.foldl_map] at h
  exact h

/-! ### The graph-building loop -/

theorem buildIndegAux_spec (messages : List Message) :
    ∀ (dm : List (Nat × Int)) (g : Nat → Int),
      (∀ m ∈ messages, m.receiver ∈ dm.map Prod.fst) →
      (∀ k ∈ dm.map Prod.fst, dictGet? dm k = some (g k)) →
      ∃ d0, buildIndegAux dm messages = .ok d0
        ∧ d0.map Prod.fst = dm.map Prod.fst
        ∧ ∀ k ∈ dm.map Prod.fst,
            dictGet? d0 k = some (g k + (inCount messages [] k : Int)) := by
  induction messages with
  | nil =>
    intro dm g _ hg
    refine ⟨dm, rfl, rfl, ?_⟩
    intro k hk
    rw [hg k hk]
    simp [inCount]
  | cons m rest ih =>
    intro dm g hrecv hg
    have hrm : m.receiver ∈ dm.map Prod.fst := hrecv m (List.mem_cons_self _ _)
    have hgm : dictGet? dm m.receiver = some (g m.receiver) := hg m.receiver hrm
    have hkeys1 : (dictSet dm m.receiver (g m.receiver + 1)).map Prod.fst = dm.map Prod.fst := by
      rw [dictSet_map_fst, if_pos hrm]
    have hrecv1 : ∀ m2 ∈ rest, m2.receiver ∈
        (dictSet dm m.receiver (g m.receiver + 1)).map Prod.fst := by
      intro m2 hm2
      rw [hkeys1]
      exact hrecv m2 (List.mem_cons_of_mem _ hm2)
    have hg1 : ∀ k ∈ (dictSet dm m.receiver (g m.receiver + 1)).map Prod.fst,
        dictGet? (dictSet dm m.receiver (g m.receiver + 1)) k =
          some ((fun k2 => if k2 = m.receiver then g k2 + 1 else g k2) k) := by
      intro k hk
      rw [hkeys1] at hk
      show dictGet? (dictSet dm m.receiver (g m.receiver + 1)) k =
        some (if k = m.receiver then g k + 1 else g k)
      by_cases hkr : k = m.receiver
      · rw [hkr, if_pos rfl]
        exact dictGet?_dictSet_self dm m.receiver (g m.receiver + 1)
      · rw [if_neg hkr, dictGet?_dictSet_ne dm m.receiver k _ hkr]
        exact hg k hk
    obtain ⟨d0, hrun, hkeys0, hval0⟩ :=
      ih (dictSet dm m.receiver (g m.receiver + 1))
        (fun k2 => if k2 = m.receiver then g k2 + 1 else g k2) hrecv1 hg1
    refine ⟨d0, ?_, by rw [hkeys0, hkeys1], ?_⟩
    · rw [buildIndegAux, hgm]
      exact hrun
    · intro k hk
      have hv := hval0 k (by rw [hkeys1]; exact hk)
      rw [hv]
      congr 1
      rw [inCount_cons]
      by_cases hkr : k = m.receiver
      · subst hkr
        rw [if_pos rfl, if_pos ⟨rfl, by simp⟩]
        push_cast
        omega
      · rw [if_neg hkr, if_neg (by rintro ⟨h1, _⟩; exact hkr h1.symm)]
        push_cast
        omega

theorem buildIndeg_ok (tasks : List Task) (messages : List Message)
    (hrecv : ∀ m ∈ messages, m.receiver ∈ taskIds tasks) :
    ∃ d0, buildIndeg tasks messages = .ok d0
      ∧ (∀ k, (dictGet? d0 k).isSome ↔ k ∈ taskIds tasks)
      ∧ (∀ tid ∈ taskIds tasks, dictGet? d0 tid = some (inCount messages [] tid : Int)) := by
  have hkeysmem : ∀ k, k ∈ (initIndeg tasks).map Prod.fst ↔ k ∈ taskIds tasks := by
    intro k
    rw [← dictGet?_isSome_iff, initIndeg_get]
    by_cases hk : k ∈ taskIds tasks
    · simp [hk]
    · simp [hk]
  obtain ⟨d0, hrun, hkeys0, hval0⟩ := buildIndegAux_spec messages (initIndeg tasks)
    (fun _ => 0)
    (fun m hm => (hkeysmem m.receiver).mpr (hrecv m hm))
    (fun k hk => by rw [initIndeg_get, if_pos ((hkeysmem k).mp hk)])
  refine ⟨d0, hrun, ?_, ?_⟩
  · intro k
    rw [dictGet?_isSome_iff, hkeys0]
    exact hkeysmem k
  · intro tid htid
    have := hval0 tid ((hkeysmem tid).mpr htid)
    rw [this]
    congr 1
    omega

/-! ### End-to-end correctness of the single-node pipeline -/

theorem snRun_spec (sortQ : List Task → List Task)
    (hsort : ∀ l, (sortQ l).Perm l)
    (tasks : List Task) (messages : List Message)
    (hids : (taskIds tasks).Nodup)
    (hsend : ∀ m ∈ messages, m.sender ∈ taskIds tasks)
    (hrecv : ∀ m ∈ messages, m.receiver ∈ taskIds tasks)
    (hw : ∀ t ∈ tasks, 0 ≤ t.wcet)
    (rank : Nat → Nat) (hrank : TopoRanked messages rank)
    (d0 : List (Nat × Int))
    (hbk : ∀ k, (dictGet? d0 k).isSome ↔ k ∈ taskIds tasks)
    (hbv : ∀ tid ∈ taskIds tasks, dictGet? d0 tid = some (inCount messages [] tid : Int)) :
    ∃ sched2 time2,
      snLoop sortQ (sortQ tasks) messages (pyFuel tasks)
          (sortQ (readyFilter d0 (sortQ tasks))) d0 0 [] = .ok (sched2, time2)
      ∧ (schedIds sched2).Perm (taskIds tasks)
      ∧ List.Chain' (fun a b => b.start_time = a.end_time) sched2
      ∧ List.Pairwise startLe sched2
      ∧ (∀ e ∈ sched2, e.node_id = 1 ∧ ∃ t, t ∈ tasks ∧ t.id = e.task_id
          ∧ e.end_time = e.start_time + t.wcet ∧ e.deadline = t.deadline)
      ∧ (∀ m ∈ messages, ∀ es ∈ sched2, ∀ er ∈ sched2,
          es.task_id = m.sender → er.task_id = m.receiver → es.end_time ≤ er.start_time) := by
  have htsperm : (sortQ tasks).Perm tasks := hsort tasks
  have hidsperm : (taskIds (sortQ tasks)).Perm (taskIds tasks) := htsperm.map _
  have hids2 : (taskIds (sortQ tasks)).Nodup := hidsperm.nodup_iff.mpr hids
  have hsend2 : ∀ m ∈ messages, m.sender ∈ taskIds (sortQ tasks) :=
    fun m hm => hidsperm.mem_iff.mpr (hsend m hm)
  have hrecv2 : ∀ m ∈ messages, m.receiver ∈ taskIds (sortQ tasks) :=
    fun m hm => hidsperm.mem_iff.mpr (hrecv m hm)
  have hw2 : ∀ t ∈ sortQ tasks, 0 ≤ t.wcet :=
    fun t ht => hw t (htsperm.mem_iff.mp ht)
  have hbk2 : ∀ k, (dictGet? d0 k).isSome ↔ k ∈ taskIds (sortQ tasks) :=
    fun k => (hbk k).trans hidsperm.mem_iff.symm
  have hbv2 : ∀ tid ∈ taskIds (sortQ tasks),
      dictGet? d0 tid = some (inCount messages [] tid : Int) :=
    fun tid htid => hbv tid (hidsperm.mem_iff.mp htid)
  have hinv0 : SNInv messages (sortQ tasks) (sortQ (readyFilter d0 (sortQ tasks))) d0 0 [] := by
    have hqperm : (sortQ (readyFilter d0 (sortQ tasks))).Perm (readyFilter d0 (sortQ tasks)) :=
      hsort _
    have hfilt : ∀ t ∈ readyFilter d0 (sortQ tasks), t ∈ sortQ tasks :=
      fun t ht => (List.mem_filter.mp ht).1
    refine ⟨⟨?_, ?_, ?_, hbk2, ?_, ?_⟩, ?_, rfl, ?_, ?_⟩
    · intro t ht
      exact hfilt t (hqperm.mem_iff.mp ht)
    · show (schedIds [] ++ taskIds (sortQ (readyFilter d0 (sortQ tasks)))).Nodup
      have h1 : (taskIds (readyFilter d0 (sortQ tasks))).Sublist (taskIds (sortQ tasks)) :=
        (List.filter_sublist _).map _
      have h2 : (taskIds (readyFilter d0 (sortQ tasks))).Nodup := h1.nodup hids2
      have h3 : (taskIds (sortQ (readyFilter d0 (sortQ tasks)))).Perm
          (taskIds (readyFilter d0 (sortQ tasks))) := (hsort _).map _
      simpa using h3.nodup_iff.mpr h2
    · intro tid htid
      simp [schedIds] at htid
    · intro tid htid
      show dictGet? d0 tid = some (inCount messages (schedIds []) tid : Int)
      exact hbv2 tid htid
    · intro tid htid
      show (tid ∈ schedIds [] ∨ tid ∈ taskIds (sortQ (readyFilter d0 (sortQ tasks))))
        ↔ inCount messages (schedIds []) tid = 0
      have hqids : (taskIds (sortQ (readyFilter d0 (sortQ tasks)))).Perm
          (taskIds (readyFilter d0 (sortQ tasks))) := (hsort _).map _
      constructor
      · intro hc
        rcases hc with hc | hc
        · simp [schedIds] at hc
        · have := hqids.mem_iff.mp hc
          rcases List.mem_map.mp this with ⟨t, ht, hid⟩
          have hcond := (List.mem_filter.mp ht).2
          rw [decide_eq_true_iff] at hcond
          have := hbv2 tid htid
          rw [hid] at hcond
          rw [hcond] at this
          have h0 : (0 : Int) = (inCount messages [] tid : Int) := Option.some.inj this
          show inCount messages (schedIds []) tid = 0
          have : inCount messages [] tid = 0 := by omega
          simpa [schedIds] using this
      · intro hc
        refine Or.inr (hqids.mem_iff.mpr ?_)
        rcases List.mem_map.mp htid with ⟨t, ht, hid⟩
        refine List.mem_map.mpr ⟨t, List.mem_filter.mpr ⟨ht, ?_⟩, hid⟩
        rw [decide_eq_true_iff, hid]
        rw [hbv2 tid htid]
        have h0 : inCount messages [] tid = 0 := by simpa [schedIds] using hc
        rw [h0]
        rfl
    · intro e he
      simp at he
    · intro e he
      simp at he
    · intro m _ es hes
      simp at hes
  have hfuel : (taskIds (sortQ tasks)).length < pyFuel tasks + ([] : List ScheduleEntry).length := by
    have h1 : (taskIds (sortQ tasks)).length = (sortQ tasks).length := List.length_map _ _
    have h2 : (sortQ tasks).length = tasks.length := htsperm.length_eq
    unfold pyFuel
    simp only [List.length_nil]
    omega
  obtain ⟨sched2, time2, d2, hrun, hinvF, hperm⟩ :=
    snLoop_spec sortQ hsort messages (sortQ tasks) hids2 hsend2 hrecv2 hw2 rank hrank
      (pyFuel tasks) (sortQ (readyFilter d0 (sortQ tasks))) d0 0 [] hinv0 hfuel
  have hstartle : ∀ e ∈ sched2, e.start_time ≤ e.end_time := by
    intro e he
    obtain ⟨_, t, ht, _, hend, _⟩ := hinvF.entries e he
    have := hw2 t ht
    omega
  refine ⟨sched2, time2, hrun, hperm.trans hidsperm, chainTimes_chain hinvF.chain,
    chainTimes_pairwise_start hinvF.chain hstartle, ?_, hinvF.prec⟩
  intro e he
  obtain ⟨hn, t, ht, hid, hend, hdl⟩ := hinvF.entries e he
  exact ⟨hn, t, htsperm.mem_iff.mp ht, hid, hend, hdl⟩

theorem ldf_single_node_spec (app : ApplicationData)
    (hwf : WellFormedApp app) (rank : Nat → Nat) (hrank : TopoRanked app.messages rank) :
    ∃ out, ldf_single_node app = .ok out
      ∧ out.result.name = "LDF Single Node"
      ∧ out.tasksAfter = ldfSort app.tasks
      ∧ (schedIds out.result.schedule).Perm (taskIds app.tasks)
      ∧ List.Chain' (fun a b => b.start_time = a.end_time) out.result.schedule
      ∧ List.Pairwise startLe out.result.schedule
      ∧ (∀ e ∈ out.result.schedule, e.node_id = 1 ∧ ∃ t, t ∈ app.tasks ∧ t.id = e.task_id
          ∧ e.end_time = e.start_time + t.wcet ∧ e.deadline = t.deadline)
      ∧ (∀ m ∈ app.messages, ∀ es ∈ out.result.schedule, ∀ er ∈ out.result.schedule,
          es.task_id = m.sender → er.task_id = m.receiver → es.end_time ≤ er.start_time) := by
  obtain ⟨hids, hsend, hrecv, hw⟩ := hwf
  obtain ⟨d0, hb, hbk, hbv⟩ := buildIndeg_ok app.tasks app.messages hrecv
  obtain ⟨sched2, time2, hrun, hperm, hchain, hpair, hent, hprec⟩ :=
    snRun_spec ldfSort (fun l => List.perm_insertionSort _ l) app.tasks app.messages
      hids hsend hrecv hw rank hrank d0 hbk hbv
  refine ⟨{ result := { schedule := sched2, name := "LDF Single Node" },
            tasksAfter := ldfSort app.tasks }, ?_, rfl, rfl, hperm, hchain, hpair, hent, hprec⟩
  unfold ldf_single_node
  rw [hb]
  dsimp only
  rw [hrun]

theorem edf_single_node_spec (app : ApplicationData)
    (hwf : WellFormedApp app) (rank : Nat → Nat) (hrank : TopoRanked app.messages rank) :
    ∃ out, edf_single_node app = .ok out
      ∧ out.result.name = "EDF Single Node"
      ∧ out.tasksAfter = edfSort app.tasks
      ∧ (schedIds out.result.schedule).Perm (taskIds app.tasks)
      ∧ List.Chain' (fun a b => b.start_time = a.end_time) out.result.schedule
      ∧ List.Pairwise startLe out.result.schedule
      ∧ (∀ e ∈ out.result.schedule, e.node_id = 1 ∧ ∃ t, t ∈ app.tasks ∧ t.id = e.task_id
          ∧ e.end_time = e.start_time + t.wcet ∧ e.deadline = t.deadline)
      ∧ (∀ m ∈ app.messages, ∀ es ∈ out.result.schedule, ∀ er ∈ out.result.schedule,
          es.task_id = m.sender → er.task_id = m.receiver → es.end_time ≤ er.start_time) := by
  obtain ⟨hids, hsend, hrecv, hw⟩ := hwf
  obtain ⟨d0, hb, hbk, hbv⟩ := buildIndeg_ok app.tasks app.messages hrecv
  obtain ⟨sched2, time2, hrun, hperm, hchain, hpair, hent, hprec⟩ :=
    snRun_spec edfSort (fun l => List.perm_insertionSort _ l) app.tasks app.messages
      hids hsend hrecv hw rank hrank d0 hbk hbv
  refine ⟨{ result := { schedule := sched2, name := "EDF Single Node" },
            tasksAfter := edfSort app.tasks }, ?_, rfl, rfl, hperm, hchain, hpair, hent, hprec⟩
  unfold edf_single_node
  rw [hb]
  dsimp only
  rw [hrun]

/-! ### The multi-node release loop: same in-degree behavior as the
single-node one, plus monotone node-clock updates -/

theorem releaseDepsMn_run (tasks : List Task) (links : List Link) (nodes : List Node)
    (curNode : Nat) (hhint : ∀ t ∈ tasks, HintOK nodes t)
    (hcurmem : curNode ∈ nodeIds nodes) :
    ∀ (deps : List Nat) (d nt : List (Nat × Int)) (acc : List Task)
      (d2 : List (Nat × Int)) (out : List Task),
      releaseDeps tasks deps d acc = .ok (d2, out) →
      (∀ k, (dictGet? nt k).isSome ↔ k ∈ nodeIds nodes) →
      ∃ nt2, releaseDepsMn tasks links curNode deps d nt acc = .ok (d2, nt2, out)
        ∧ (∀ k, (dictGet? nt2 k).isSome ↔ k ∈ nodeIds nodes)
        ∧ nt2.map Prod.fst = nt.map Prod.fst
        ∧ (∀ k v, dictGet? nt k = some v → ∃ v2, dictGet? nt2 k = some v2 ∧ v ≤ v2) := by
  intro deps
  induction deps with
  | nil =>
    intro d nt acc d2 out heq hmem
    rw [releaseDeps] at heq
    have hd : d = d2 ∧ acc = out := by
      have := Except.ok.inj heq
      exact ⟨congrArg Prod.fst this, congrArg Prod.snd this⟩
    refine ⟨nt, ?_, hmem, rfl, fun k v hv => ⟨v, hv, le_refl v⟩⟩
    rw [releaseDepsMn, hd.1, hd.2]
  | cons dep rest ih =>
    intro d nt acc d2 out heq hmem
    cases hv : dictGet? d dep with
    | none =>
      rw [releaseDeps, hv] at heq
      cases heq
    | some v =>
      rw [releaseDeps, hv] at heq
      dsimp only at heq
      by_cases hz : v - 1 = 0
      · rw [if_pos hz] at heq
        cases hfnd : tasks.find? (fun t2 => t2.id == dep) with
        | none =>
          rw [hfnd] at heq
          cases heq
        | some t =>
          rw [hfnd] at heq
          dsimp only at heq
          cases hh : t.node_hint with
          | none =>
            obtain ⟨nt2, hrunM, hmem2, hkeys, hmono⟩ := ih _ nt _ _ _ heq hmem
            refine ⟨nt2, ?_, hmem2, hkeys, hmono⟩
            rw [releaseDepsMn, hv]
            dsimp only
            rw [if_pos hz, hfnd]
            dsimp only
            rw [hh]
            exact hrunM
          | some h =>
            by_cases hcond : (h != 0 && h != curNode) = true
            · have hne0 : h ≠ 0 := by
                simp only [Bool.and_eq_true, bne_iff_ne] at hcond
                exact hcond.1
              have hmemN : h ∈ nodeIds nodes := by
                have hht := hhint t (List.mem_of_find?_eq_some hfnd) h hh
                rcases hht with hht | hht
                · exact absurd hht hne0
                · exact hht
              obtain ⟨hv0, hgh⟩ := Option.isSome_iff_exists.mp ((hmem h).mpr hmemN)
              obtain ⟨cv0, hgc⟩ := Option.isSome_iff_exists.mp ((hmem curNode).mpr hcurmem)
              have hkeys1 : (dictSet nt h (max hv0 (cv0 + find_link_delay links curNode h))).map
                  Prod.fst = nt.map Prod.fst := by
                rw [dictSet_map_fst, if_pos ((dictGet?_isSome_iff nt h).mp (by rw [hgh]; rfl))]
              have hmem1 : ∀ k, (dictGet? (dictSet nt h
                  (max hv0 (cv0 + find_link_delay links curNode h))) k).isSome
                    ↔ k ∈ nodeIds nodes := by
                intro k
                rw [dictGet?_isSome_iff, hkeys1, ← dictGet?_isSome_iff]
                exact hmem k
              obtain ⟨nt2, hrunM, hmem2, hkeys2, hmono2⟩ := ih _ _ _ _ _ heq hmem1
              refine ⟨nt2, ?_, hmem2, hkeys2.trans hkeys1, ?_⟩
              · rw [releaseDepsMn, hv]
                dsimp only
                rw [if_pos hz, hfnd]
                dsimp only
                rw [hh]
                dsimp only
                rw [if_pos hcond, hgh]
                dsimp only
                rw [hgc]
                exact hrunM
              · intro k w hw
                by_cases hkh : k = h
                · have hgkh : dictGet? nt k = some hv0 := by
                    rw [hkh]
                    exact hgh
                  have hweq : w = hv0 := by
                    rw [hw] at hgkh
                    exact Option.some.inj hgkh
                  have hself : dictGet? (dictSet nt h
                      (max hv0 (cv0 + find_link_delay links curNode h))) k =
                        some (max hv0 (cv0 + find_link_delay links curNode h)) := by
                    rw [hkh]
                    exact dictGet?_dictSet_self nt h _
                  obtain ⟨v2, hv2, hle2⟩ := hmono2 k _ hself
                  refine ⟨v2, hv2, ?_⟩
                  have hle3 : hv0 ≤ max hv0 (cv0 + find_link_delay links curNode h) :=
                    le_max_left _ _
                  omega
                · obtain ⟨v2, hv2, hle2⟩ := hmono2 k w (by
                    rw [dictGet?_dictSet_ne nt h k _ hkh]
                    exact hw)
                  exact ⟨v2, hv2, hle2⟩
            · obtain ⟨nt2, hrunM, hmem2, hkeys, hmono⟩ := ih _ nt _ _ _ heq hmem
              refine ⟨nt2, ?_, hmem2, hkeys, hmono⟩
              rw [releaseDepsMn, hv]
              dsimp only
              rw [if_pos hz, hfnd]
              dsimp only
              rw [hh]
              dsimp only
              rw [if_neg hcond]
              exact hrunM
      · rw [if_neg hz] at heq
        obtain ⟨nt2, hrunM, hmem2, hkeys, hmono⟩ := ih _ nt _ _ _ heq hmem
        refine ⟨nt2, ?_, hmem2, hkeys, hmono⟩
        rw [releaseDepsMn, hv]
        dsimp only
        rw [if_neg hz]
        exact hrunM

/-! ### Full correctness of the multi-node loop -/

theorem mnLoop_spec (messages : List Message) (ts : List Task) (nodes : List Node)
    (links : List Link)
    (hids : (taskIds ts).Nodup)
    (hsend : ∀ m ∈ messages, m.sender ∈ taskIds ts)
    (hrecv : ∀ m ∈ messages, m.receiver ∈ taskIds ts)
    (hw : ∀ t ∈ ts, 0 ≤ t.wcet)
    (hhint : ∀ t ∈ ts, HintOK nodes t)
    (hnodes : nodes ≠ [])
    (rank : Nat → Nat) (hrank : TopoRanked messages rank) :
    ∀ (fuel : Nat) (q : List Task) (d nt : List (Nat × Int)) (sched : List ScheduleEntry),
      MNInv messages ts nodes q d nt sched →
      (taskIds ts).length < fuel + sched.length →
      ∃ sched2 nt2 d2, mnLoop ts messages links fuel q d nt sched = .ok (sched2, nt2)
        ∧ MNInv messages ts nodes [] d2 nt2 sched2
        ∧ (schedIds sched2).Perm (taskIds ts) := by
  intro fuel
  induction fuel with
  | zero =>
    intro q d nt sched inv hfuel
    exfalso
    have hndS : (schedIds sched).Nodup := by
      have := inv.core.nodupIds
      rw [List.nodup_append] at this
      exact this.1
    have hsub : schedIds sched ⊆ taskIds ts := fun a ha => inv.core.schedSub a ha
    have hlen : (schedIds sched).length ≤ (taskIds ts).length :=
      (hndS.subperm hsub).length_le
    have hslen : (schedIds sched).length = sched.length := List.length_map _ _
    omega
  | succ fuel ih =>
    intro q d nt sched inv hfuel
    cases q with
    | nil =>
      refine ⟨sched, nt, d, by rw [mnLoop], inv, ?_⟩
      exact CoreInv_terminal messages ts hids hsend rank hrank d sched inv.core
    | cons task rest =>
      have htaskts : task ∈ ts := inv.core.qmem task (List.mem_cons_self _ _)
      have hwt : 0 ≤ task.wcet := hw task htaskts
      have hx_notin_S : task.id ∉ schedIds sched := by
        have := inv.core.nodupIds
        rw [List.nodup_append] at this
        intro hc
        exact this.2.2 hc (List.mem_cons_self _ _)
      -- the node chosen by min(node_time, key=node_time.get)
      have hntne : nt ≠ [] := by
        intro hc
        cases nodes with
        | nil => exact hnodes rfl
        | cons n0 nrest =>
          have : (dictGet? nt n0.id).isSome :=
            (inv.ntKeysMem n0.id).mpr (List.mem_map_of_mem _ (List.mem_cons_self _ _))
          rw [hc] at this
          simp [dictGet?] at this
      obtain ⟨pr, hmp⟩ : ∃ pr, minPair nt = some pr := by
        cases hnt2 : nt with
        | nil => exact absurd hnt2 hntne
        | cons p r => exact ⟨_, rfl⟩
      rcases pr with ⟨nid, ntime⟩
      obtain ⟨hmpmem, hmpmin⟩ := minPair_spec nt nid ntime hmp
      have hgetnid : dictGet? nt nid = some ntime :=
        dictGet?_eq_some_of_mem nt nid ntime inv.ntKeysNodup hmpmem
      have hnidmem : nid ∈ nodeIds nodes :=
        (inv.ntKeysMem nid).mp (by rw [hgetnid]; rfl)
      have hkeys1 : (dictSet nt nid (ntime + task.wcet)).map Prod.fst = nt.map Prod.fst := by
        rw [dictSet_map_fst, if_pos ((dictGet?_isSome_iff nt nid).mp (by rw [hgetnid]; rfl))]
      have hmem1 : ∀ k, (dictGet? (dictSet nt nid (ntime + task.wcet)) k).isSome
          ↔ k ∈ nodeIds nodes := by
        intro k
        rw [dictGet?_isSome_iff, hkeys1, ← dictGet?_isSome_iff]
        exact inv.ntKeysMem k
      obtain ⟨hpre1, hpre2⟩ :=
        CoreInv_release_pre messages ts hrecv task rest d sched inv.core
      obtain ⟨d2, newly, heqSN, hrel⟩ :=
        releaseDeps_spec ts (adjacents messages task.id) d [] hpre1 hpre2
      rw [List.nil_append] at heqSN
      obtain ⟨nt2, heqMN, hmem2, hkeys2, hmono2⟩ :=
        releaseDepsMn_run ts links nodes nid hhint hnidmem (adjacents messages task.id)
          d (dictSet nt nid (ntime + task.wcet)) [] d2 newly heqSN hmem1
      have hstep : mnLoop ts messages links (fuel + 1) (task :: rest) d nt sched =
          mnLoop ts messages links fuel (edfSort (rest ++ newly)) d2 nt2
            (sched ++ [(⟨task.id, nid, ntime, ntime + task.wcet, task.deadline⟩
              : ScheduleEntry)]) := by
        rw [mnLoop, hmp]
        dsimp only
        rw [heqMN]
      have hcore2 : CoreInv messages ts (edfSort (rest ++ newly)) d2
          (sched ++ [(⟨task.id, nid, ntime, ntime + task.wcet, task.deadline⟩
            : ScheduleEntry)]) :=
        CoreInv_step messages ts hrecv task rest d d2 sched newly inv.core hrel
          _ rfl _ (List.perm_insertionSort _ _)
      have hntnodup2 : (nt2.map Prod.fst).Nodup := by
        rw [hkeys2, hkeys1]
        exact inv.ntKeysNodup
      -- value of the chosen node clock after the dictSet
      have hget1nid : dictGet? (dictSet nt nid (ntime + task.wcet)) nid =
          some (ntime + task.wcet) := dictGet?_dictSet_self nt nid _
      have hinv2 : MNInv messages ts nodes (edfSort (rest ++ newly)) d2 nt2
          (sched ++ [(⟨task.id, nid, ntime, ntime + task.wcet, task.deadline⟩
            : ScheduleEntry)]) := by
        refine ⟨hcore2, hntnodup2, hmem2, ?_, ?_⟩
        · -- clockBound
          intro e2 he2
          rcases List.mem_append.mp he2 with h | h
          · obtain ⟨v, hv, hb⟩ := inv.clockBound e2 h
            by_cases hn : e2.node_id = nid
            · have hveq : v = ntime := by
                rw [hn] at hv
                rw [hv] at hgetnid
                exact Option.some.inj hgetnid
              obtain ⟨v2, hv2, hle2⟩ := hmono2 e2.node_id (ntime + task.wcet) (by
                rw [hn]
                exact hget1nid)
              exact ⟨v2, hv2, by omega⟩
            · obtain ⟨v2, hv2, hle2⟩ := hmono2 e2.node_id v (by
                rw [dictGet?_dictSet_ne nt nid e2.node_id _ hn]
                exact hv)
              exact ⟨v2, hv2, by omega⟩
          · rw [List.mem_singleton] at h
            subst h
            obtain ⟨v2, hv2, hle2⟩ := hmono2 nid (ntime + task.wcet) hget1nid
            exact ⟨v2, hv2, hle2⟩
        · -- same-node precedence
          intro m hm es hes er her hsid hrid hnode
          rcases List.mem_append.mp hes with hs1 | hs1 <;>
            rcases List.mem_append.mp her with hr1 | hr1
          · exact inv.prec m hm es hs1 er hr1 hsid hrid hnode
          · rw [List.mem_singleton] at hr1
            subst hr1
            obtain ⟨v, hv, hb⟩ := inv.clockBound es hs1
            have hes_nid : es.node_id = nid := hnode
            have hveq : v = ntime := by
              rw [hes_nid] at hv
              rw [hv] at hgetnid
              exact Option.some.inj hgetnid
            show es.end_time ≤ ntime
            omega
          · exfalso
            rw [List.mem_singleton] at hs1
            subst hs1
            have hrts : m.receiver ∈ taskIds ts := hrecv m hm
            have hrS : m.receiver ∈ schedIds sched := hrid ▸ List.mem_map_of_mem _ hr1
            have h0 : inCount messages (schedIds sched) m.receiver = 0 :=
              (inv.core.ready m.receiver hrts).mp (Or.inl hrS)
            have := (inCount_zero_iff messages (schedIds sched) m.receiver).mp h0 m hm rfl
            rw [← hsid] at this
            exact hx_notin_S this
          · exfalso
            rw [List.mem_singleton] at hs1 hr1
            subst hs1
            subst hr1
            have hrts : m.receiver ∈ taskIds ts := hrecv m hm
            have hxq : task.id ∈ taskIds (task :: rest) :=
              List.mem_map_of_mem _ (List.mem_cons_self _ _)
            have h0 : inCount messages (schedIds sched) m.receiver = 0 :=
              (inv.core.ready m.receiver hrts).mp (Or.inr (hrid ▸ hxq))
            have := (inCount_zero_iff messages (schedIds sched) m.receiver).mp h0 m hm rfl
            rw [← hsid] at this
            exact hx_notin_S this
      have hfuel2 : (taskIds ts).length < fuel +
          (sched ++ [(⟨task.id, nid, ntime, ntime + task.wcet, task.deadline⟩
            : ScheduleEntry)]).length := by
        rw [List.length_append]
        simp only [List.length_singleton]
        omega
      obtain ⟨s2, ntF, dd2, hrun, hinvF, hperm⟩ := ih _ _ _ _ hinv2 hfuel2
      exact ⟨s2, ntF, dd2, by rw [hstep]; exact hrun, hinvF, hperm⟩

/-! ### Initial core invariant shared by the pipelines -/

theorem CoreInv_init (messages : List Message) (ts : List Task)
    (sortQ : List Task → List Task) (hsort : ∀ l, (sortQ l).Perm l)
    (hids : (taskIds ts).Nodup)
    (d0 : List (Nat × Int))
    (hbk : ∀ k, (dictGet? d0 k).isSome ↔ k ∈ taskIds ts)
    (hbv : ∀ tid ∈ taskIds ts, dictGet? d0 tid = some (inCount messages [] tid : Int)) :
    CoreInv messages ts (sortQ (readyFilter d0 ts)) d0 [] := by
  have hqperm : (sortQ (readyFilter d0 ts)).Perm (readyFilter d0 ts) := hsort _
  have hfilt : ∀ t ∈ readyFilter d0 ts, t ∈ ts := fun t ht => (List.mem_filter.mp ht).1
  have hqids : (taskIds (sortQ (readyFilter d0 ts))).Perm (taskIds (readyFilter d0 ts)) :=
    hqperm.map _
  refine ⟨?_, ?_, ?_, hbk, ?_, ?_⟩
  · intro t ht
    exact hfilt t (hqperm.mem_iff.mp ht)
  · show (schedIds [] ++ taskIds (sortQ (readyFilter d0 ts))).Nodup
    have h1 : (taskIds (readyFilter d0 ts)).Sublist (taskIds ts) :=
      (List.filter_sublist _).map _
    have h2 : (taskIds (readyFilter d0 ts)).Nodup := h1.nodup hids
    simpa using hqids.nodup_iff.mpr h2
  · intro tid htid
    simp [schedIds] at htid
  · intro tid htid
    show dictGet? d0 tid = some (inCount messages (schedIds []) tid : Int)
    exact hbv tid htid
  · intro tid htid
    show (tid ∈ schedIds [] ∨ tid ∈ taskIds (sortQ (readyFilter d0 ts)))
      ↔ inCount messages (schedIds []) tid = 0
    constructor
    · intro hc
      rcases hc with hc | hc
      · simp [schedIds] at hc
      · have := hqids.mem_iff.mp hc
        rcases List.mem_map.mp this with ⟨t, ht, hid⟩
        have hcond := (List.mem_filter.mp ht).2
        rw [decide_eq_true_iff] at hcond
        have hvt := hbv tid htid
        rw [hid] at hcond
        rw [hcond] at hvt
        have h0 : (0 : Int) = (inCount messages [] tid : Int) := Option.some.inj hvt
        show inCount messages (schedIds []) tid = 0
        have hz : inCount messages [] tid = 0 := by omega
        simpa [schedIds] using hz
    · intro hc
      refine Or.inr (hqids.mem_iff.mpr ?_)
      rcases List.mem_map.mp htid with ⟨t, ht, hid⟩
      refine List.mem_map.mpr ⟨t, List.mem_filter.mpr ⟨ht, ?_⟩, hid⟩
      rw [decide_eq_true_iff, hid]
      rw [hbv tid htid]
      have h0 : inCount messages [] tid = 0 := by simpa [schedIds] using hc
      rw [h0]
      rfl

/-! ### End-to-end correctness of edf_multinode -/

theorem edf_multinode_spec (app : ApplicationData) (plat : PlatformData)
    (hwf : WellFormedApp app) (hplat : WellFormedPlat app plat)
    (rank : Nat → Nat) (hrank : TopoRanked app.messages rank) :
    ∃ out, edf_multinode app plat = .ok out
      ∧ out.result.name = "EDF Multi Node"
      ∧ out.tasksAfter = edfSort app.tasks
      ∧ (schedIds out.result.schedule).Perm (taskIds app.tasks)
      ∧ sameNodeSeparationOK app.messages out.result.schedule := by
  obtain ⟨hids, hsend, hrecv, hw⟩ := hwf
  obtain ⟨hnodes, hhint⟩ := hplat
  obtain ⟨d0, hb, hbk, hbv⟩ := buildIndeg_ok app.tasks app.messages hrecv
  have htsperm : (edfSort app.tasks).Perm app.tasks := List.perm_insertionSort _ _
  have hidsperm : (taskIds (edfSort app.tasks)).Perm (taskIds app.tasks) := htsperm.map _
  have hids2 : (taskIds (edfSort app.tasks)).Nodup := hidsperm.nodup_iff.mpr hids
  have hsend2 : ∀ m ∈ app.messages, m.sender ∈ taskIds (edfSort app.tasks) :=
    fun m hm => hidsperm.mem_iff.mpr (hsend m hm)
  have hrecv2 : ∀ m ∈ app.messages, m.receiver ∈ taskIds (edfSort app.tasks) :=
    fun m hm => hidsperm.mem_iff.mpr (hrecv m hm)
  have hw2 : ∀ t ∈ edfSort app.tasks, 0 ≤ t.wcet := fun t ht => hw t (htsperm.mem_iff.mp ht)
  have hhint2 : ∀ t ∈ edfSort app.tasks, HintOK plat.nodes t :=
    fun t ht => hhint t (htsperm.mem_iff.mp ht)
  have hbk2 : ∀ k, (dictGet? d0 k).isSome ↔ k ∈ taskIds (edfSort app.tasks) :=
    fun k => (hbk k).trans hidsperm.mem_iff.symm
  have hbv2 : ∀ tid ∈ taskIds (edfSort app.tasks),
      dictGet? d0 tid = some (inCount app.messages [] tid : Int) :=
    fun tid htid => hbv tid (hidsperm.mem_iff.mp htid)
  have hcore0 : CoreInv app.messages (edfSort app.tasks)
      (edfSort (readyFilter d0 (edfSort app.tasks))) d0 [] :=
    CoreInv_init app.messages (edfSort app.tasks) edfSort
      (fun l => List.perm_insertionSort _ l) hids2 d0 hbk2 hbv2
  have hinv0 : MNInv app.messages (edfSort app.tasks) plat.nodes
      (edfSort (readyFilter d0 (edfSort app.tasks))) d0 (initNodeTime plat.nodes) [] := by
    refine ⟨hcore0, initNodeTime_keys_nodup plat.nodes, ?_, ?_, ?_⟩
    · intro k
      rw [initNodeTime_get]
      by_cases hk : k ∈ nodeIds plat.nodes
      · simp [hk]
      · simp [hk]
    · intro e he
      simp at he
    · intro m _ es hes
      simp at hes
  have hfuel : (taskIds (edfSort app.tasks)).length <
      pyFuel app.tasks + ([] : List ScheduleEntry).length := by
    have h1 : (taskIds (edfSort app.tasks)).length = (edfSort app.tasks).length :=
      List.length_map _ _
    have h2 : (edfSort app.tasks).length = app.tasks.length := htsperm.length_eq
    unfold pyFuel
    simp only [List.length_nil]
    omega
  obtain ⟨sched2, nt2, d2, hrun, hinvF, hperm⟩ :=
    mnLoop_spec app.messages (edfSort app.tasks) plat.nodes plat.links hids2 hsend2 hrecv2
      hw2 hhint2 hnodes rank hrank (pyFuel app.tasks)
      (edfSort (readyFilter d0 (edfSort app.tasks))) d0 (initNodeTime plat.nodes) [] hinv0 hfuel
  refine ⟨{ result := { schedule := sched2, name := "EDF Multi Node" },
            tasksAfter := edfSort app.tasks }, ?_, rfl, rfl, hperm.trans hidsperm, ?_⟩
  · unfold edf_multinode
    rw [hb]
    dsimp only
    rw [hrun]
  · exact hinvF.prec

/-! ### Claim theorems settled by direct evaluation -/

/-- C1: on the cyclic input c1app the code does NOT raise any
CyclicDependencyError (no such error exists in the module): all three
operations return normally with an empty schedule, silently dropping both
tasks. This contradicts the claim; the spec itself calls this reference
behavior a defect. -/
theorem C1_cyclic_input_returns_silently :
    (ldf_single_node c1app).map (fun o => o.result.schedule) = .ok []
    ∧ (edf_single_node c1app).map (fun o => o.result.schedule) = .ok []
    ∧ (edf_multinode c1app c1plat).map (fun o => o.result.schedule) = .ok [] := by
  refine ⟨rfl, rfl, rfl⟩

/-- C7: the code mutates the caller-owned task list. On c7app,
ldf_single_node leaves the caller's list reordered to [task 2, task 1]
(descending deadline), and on c7appEdf, edf_single_node and edf_multinode
leave it reordered to [task 2, task 1] (ascending deadline) -- in all three
cases different from the list that was passed in. -/
theorem C7_caller_task_list_is_mutated :
    (ldf_single_node c7app).map (fun o => o.tasksAfter) =
      .ok [ { id := 2, wcet := 1, deadline := 200 }, { id := 1, wcet := 1, deadline := 100 } ]
    ∧ (edf_single_node c7appEdf).map (fun o => o.tasksAfter) =
      .ok [ { id := 2, wcet := 1, deadline := 100 }, { id := 1, wcet := 1, deadline := 200 } ]
    ∧ (edf_multinode c7appEdf c1plat).map (fun o => o.tasksAfter) =
      .ok [ { id := 2, wcet := 1, deadline := 100 }, { id := 1, wcet := 1, deadline := 200 } ]
    ∧ ([ { id := 2, wcet := 1, deadline := 200 }, { id := 1, wcet := 1, deadline := 100 } ]
        : List Task) ≠ c7app.tasks
    ∧ ([ { id := 2, wcet := 1, deadline := 100 }, { id := 1, wcet := 1, deadline := 200 } ]
        : List Task) ≠ c7appEdf.tasks := by
  refine ⟨rfl, rfl, rfl, by decide, by decide⟩

/-- C9: no UnknownTaskReferenceError exists. A message with an unknown
SENDER raises nothing at all: the call returns normally with an empty
schedule, silently dropping task 1. A message with an unknown RECEIVER
raises the builtin KeyError 99, not a structured scheduler error. Shown for
ldf_single_node and edf_multinode (edf_single_node is identical code). -/
theorem C9_unknown_reference_behavior :
    (ldf_single_node c9appSender).map (fun o => o.result.schedule) = .ok []
    ∧ ldf_single_node c9appReceiver = .error (.keyError 99)
    ∧ (edf_multinode c9appSender c9plat).map (fun o => o.result.schedule) = .ok []
    ∧ edf_multinode c9appReceiver c9plat = .error (.keyError 99) := by
  refine ⟨rfl, rfl, rfl, rfl⟩

/-- C10: ll_multinode and ldf_multinode ignore their inputs and return the
hard-coded example schedule of four fixed entries, under the names
"LL Multi Node" and "LDF Multi Node". -/
theorem C10_hardcoded_example_schedule :
    ∀ (a : ApplicationData) (p : PlatformData),
      ll_multinode a p = { schedule := example_schedule, name := "LL Multi Node" }
      ∧ ldf_multinode a p = { schedule := example_schedule, name := "LDF Multi Node" }
      ∧ example_schedule.length = 4 := by
  intro a p; exact ⟨rfl, rfl, rfl⟩

/-- C8: every scheduling operation is deterministic. The embedding of each
operation is a pure function of its arguments (the Python code's only state
is call-local: dict iteration order and the stable sort are deterministic),
so identical inputs yield identical outcomes, including the mutated task
list. -/
theorem C8_deterministic (a b : ApplicationData) (p q : PlatformData)
    (happ : a = b) (hplat : p = q) :
    ldf_single_node a = ldf_single_node b
    ∧ edf_single_node a = edf_single_node b
    ∧ edf_multinode a p = edf_multinode b q
    ∧ ll_multinode a p = ll_multinode b q
    ∧ ldf_multinode a p = ldf_multinode b q := by
  subst happ; subst hplat; exact ⟨rfl, rfl, rfl, rfl, rfl⟩

/-- Witness for C8 at a concrete input. -/
theorem C8_deterministic_witness :
    ldf_single_node c8app = ldf_single_node c8app
    ∧ edf_single_node c8app = edf_single_node c8app
    ∧ edf_multinode c8app c8plat = edf_multinode c8app c8plat
    ∧ ll_multinode c8app c8plat = ll_multinode c8app c8plat
    ∧ ldf_multinode c8app c8plat = ldf_multinode c8app c8plat :=
  C8_deterministic c8app c8app c8plat c8plat rfl rfl

/-- C3 counterexample: on c3app/c3plat the message 1 -> 2 is scheduled with
sender on node 1 (ends at 10) and receiver on node 2 (starts at 0), so the
claimed cross-node bound start >= end + link delay (here 0 >= 10 + 7) fails:
the code applies link delay only through the node_id hint, which ordinary
tasks do not carry. -/
theorem C3_counterexample :
    (edf_multinode c3app c3plat).map (fun o => o.result.schedule) = .ok c3sched
    ∧ ¬ messageSeparationOK c3plat.links c3app.messages c3sched := by
  exact ⟨rfl, by decide⟩

/-- C4 counterexample: both tasks of c4app are ready with equal deadlines,
yet every scheduler picks task 2 (listed first) before task 1, because the
stable sort keeps input order on ties; the claimed id-ascending tie-break
would pick task 1 first. -/
theorem C4_counterexample :
    (edf_single_node c4app).map (fun o => o.result.schedule.map (fun e => e.task_id)) =
      .ok [2, 1]
    ∧ (ldf_single_node c4app).map (fun o => o.result.schedule.map (fun e => e.task_id)) =
      .ok [2, 1]
    ∧ (edf_multinode c4app c9plat).map (fun o => o.result.schedule.map (fun e => e.task_id)) =
      .ok [2, 1]
    ∧ (2 : Nat) ≠ 1 := by
  refine ⟨rfl, rfl, rfl, by decide⟩

/-- C5 counterexample: on c5plat both node clocks are 0, the minimal value;
the claim says the smallest node id (1) must be chosen, but edf_multinode
assigns the task to node 2 because node 2 is listed first in the nodes list
(Python min returns the first key attaining the minimum, in dict insertion
order). -/
theorem C5_counterexample :
    (edf_multinode c5app c5plat).map (fun o => o.result.schedule.map (fun e => e.node_id)) =
      .ok [2]
    ∧ (2 : Nat) ≠ 1 := by
  refine ⟨rfl, by decide⟩

/-- C2: for every well-formed application whose message graph admits a
topological rank (i.e. is acyclic), each of ldf_single_node,
edf_single_node and edf_multinode returns a schedule whose task-id list is
a permutation of the input task-id list, and (the ids being unique) each
task id occurs in the schedule exactly once: nothing is dropped, nothing
is duplicated. -/
theorem C2_each_task_scheduled_exactly_once (app : ApplicationData) (plat : PlatformData)
    (rank : Nat → Nat) (hwf : WellFormedApp app) (hrank : TopoRanked app.messages rank)
    (hplat : WellFormedPlat app plat) :
    (∃ out, ldf_single_node app = .ok out
      ∧ (schedIds out.result.schedule).Perm (taskIds app.tasks)
      ∧ ∀ tid ∈ taskIds app.tasks, (schedIds out.result.schedule).count tid = 1)
    ∧ (∃ out, edf_single_node app = .ok out
      ∧ (schedIds out.result.schedule).Perm (taskIds app.tasks)
      ∧ ∀ tid ∈ taskIds app.tasks, (schedIds out.result.schedule).count tid = 1)
    ∧ (∃ out, edf_multinode app plat = .ok out
      ∧ (schedIds out.result.schedule).Perm (taskIds app.tasks)
      ∧ ∀ tid ∈ taskIds app.tasks, (schedIds out.result.schedule).count tid = 1) := by
  have hids : (taskIds app.tasks).Nodup := hwf.1
  have hcount : ∀ (l : List Nat), l.Perm (taskIds app.tasks) →
      ∀ tid ∈ taskIds app.tasks, l.count tid = 1 := by
    intro l hp tid htid
    rw [hp.count_eq]
    exact List.count_eq_one_of_mem hids htid
  refine ⟨?_, ?_, ?_⟩
  · obtain ⟨out, hrun, _, _, hperm, _⟩ := ldf_single_node_spec app hwf rank hrank
    exact ⟨out, hrun, hperm, hcount _ hperm⟩
  · obtain ⟨out, hrun, _, _, hperm, _⟩ := edf_single_node_spec app hwf rank hrank
    exact ⟨out, hrun, hperm, hcount _ hperm⟩
  · obtain ⟨out, hrun, _, _, hperm, _⟩ := edf_multinode_spec app plat hwf hplat rank hrank
    exact ⟨out, hrun, hperm, hcount _ hperm⟩

/-- Witness for C2 at a concrete acyclic input. -/
theorem C2_each_task_scheduled_exactly_once_witness :
    (∃ out, ldf_single_node c2app = .ok out
      ∧ (schedIds out.result.schedule).Perm (taskIds c2app.tasks)
      ∧ ∀ tid ∈ taskIds c2app.tasks, (schedIds out.result.schedule).count tid = 1)
    ∧ (∃ out, edf_single_node c2app = .ok out
      ∧ (schedIds out.result.schedule).Perm (taskIds c2app.tasks)
      ∧ ∀ tid ∈ taskIds c2app.tasks, (schedIds out.result.schedule).count tid = 1)
    ∧ (∃ out, edf_multinode c2app c2plat = .ok out
      ∧ (schedIds out.result.schedule).Perm (taskIds c2app.tasks)
      ∧ ∀ tid ∈ taskIds c2app.tasks, (schedIds out.result.schedule).count tid = 1) :=
  C2_each_task_scheduled_exactly_once c2app c2plat c2rank (by decide)
    (by decide) (by decide)

/-- C3 amended: for well-formed acyclic inputs the SAME-NODE half of the
claim holds for all three operations: whenever the sender and receiver
entries of a message carry the same node id, the receiver starts no earlier
than the sender ends (single-node schedules place every entry on node 1, so
there the guarantee is unconditional). The claimed cross-node bound with
the link delay does NOT hold (C3_counterexample): edf_multinode applies a
link delay only to dependents carrying a pre-assigned truthy node_id hint,
which ordinary tasks never have. -/
theorem C3_amended_same_node_separation (app : ApplicationData) (plat : PlatformData)
    (rank : Nat → Nat) (hwf : WellFormedApp app) (hrank : TopoRanked app.messages rank)
    (hplat : WellFormedPlat app plat) :
    (∃ out, ldf_single_node app = .ok out
      ∧ sameNodeSeparationOK app.messages out.result.schedule)
    ∧ (∃ out, edf_single_node app = .ok out
      ∧ sameNodeSeparationOK app.messages out.result.schedule)
    ∧ (∃ out, edf_multinode app plat = .ok out
      ∧ sameNodeSeparationOK app.messages out.result.schedule) := by
  refine ⟨?_, ?_, ?_⟩
  · obtain ⟨out, hrun, _, _, _, _, _, _, hprec⟩ := ldf_single_node_spec app hwf rank hrank
    exact ⟨out, hrun, fun m hm es hes er her hsid hrid _ => hprec m hm es hes er her hsid hrid⟩
  · obtain ⟨out, hrun, _, _, _, _, _, _, hprec⟩ := edf_single_node_spec app hwf rank hrank
    exact ⟨out, hrun, fun m hm es hes er her hsid hrid _ => hprec m hm es hes er her hsid hrid⟩
  · obtain ⟨out, hrun, _, _, _, hsep⟩ := edf_multinode_spec app plat hwf hplat rank hrank
    exact ⟨out, hrun, hsep⟩

/-- Witness for the amended C3 at a concrete input. -/
theorem C3_amended_same_node_separation_witness :
    (∃ out, ldf_single_node c3app2 = .ok out
      ∧ sameNodeSeparationOK c3app2.messages out.result.schedule)
    ∧ (∃ out, edf_single_node c3app2 = .ok out
      ∧ sameNodeSeparationOK c3app2.messages out.result.schedule)
    ∧ (∃ out, edf_multinode c3app2 c3plat2 = .ok out
      ∧ sameNodeSeparationOK c3app2.messages out.result.schedule) :=
  C3_amended_same_node_separation c3app2 c3plat2 c2rank (by decide) (by decide) (by decide)

/-- C6: for every well-formed acyclic input, both single-node schedulers
return a schedule that is already sorted by start time (so sorting it by
start_time is the identity), consecutive entries satisfy
start_time[i+1] = end_time[i], and every entry satisfies
end_time = start_time + wcet of the task with that id. -/
theorem C6_single_node_contiguous (app : ApplicationData)
    (rank : Nat → Nat) (hwf : WellFormedApp app) (hrank : TopoRanked app.messages rank) :
    (∃ out, ldf_single_node app = .ok out
      ∧ startSort out.result.schedule = out.result.schedule
      ∧ List.Chain' (fun a b => b.start_time = a.end_time) out.result.schedule
      ∧ ∀ e ∈ out.result.schedule, ∃ t, t ∈ app.tasks ∧ t.id = e.task_id
          ∧ e.end_time = e.start_time + t.wcet)
    ∧ (∃ out, edf_single_node app = .ok out
      ∧ startSort out.result.schedule = out.result.schedule
      ∧ List.Chain' (fun a b => b.start_time = a.end_time) out.result.schedule
      ∧ ∀ e ∈ out.result.schedule, ∃ t, t ∈ app.tasks ∧ t.id = e.task_id
          ∧ e.end_time = e.start_time + t.wcet) := by
  constructor
  · obtain ⟨out, hrun, _, _, _, hchain, hpair, hent, _⟩ := ldf_single_node_spec app hwf rank hrank
    refine ⟨out, hrun, ?_, hchain, ?_⟩
    · exact List.Sorted.insertionSort_eq hpair
    · intro e he
      obtain ⟨_, t, ht, hid, hend, _⟩ := hent e he
      exact ⟨t, ht, hid, hend⟩
  · obtain ⟨out, hrun, _, _, _, hchain, hpair, hent, _⟩ := edf_single_node_spec app hwf rank hrank
    refine ⟨out, hrun, ?_, hchain, ?_⟩
    · exact List.Sorted.insertionSort_eq hpair
    · intro e he
      obtain ⟨_, t, ht, hid, hend, _⟩ := hent e he
      exact ⟨t, ht, hid, hend⟩

/-- Witness for C6 at a concrete input. -/
theorem C6_single_node_contiguous_witness :
    (∃ out, ldf_single_node c6app = .ok out
      ∧ startSort out.result.schedule = out.result.schedule
      ∧ List.Chain' (fun a b => b.start_time = a.end_time) out.result.schedule
      ∧ ∀ e ∈ out.result.schedule, ∃ t, t ∈ c6app.tasks ∧ t.id = e.task_id
          ∧ e.end_time = e.start_time + t.wcet)
    ∧ (∃ out, edf_single_node c6app = .ok out
      ∧ startSort out.result.schedule = out.result.schedule
      ∧ List.Chain' (fun a b => b.start_time = a.end_time) out.result.schedule
      ∧ ∀ e ∈ out.result.schedule, ∃ t, t ∈ c6app.tasks ∧ t.id = e.task_id
          ∧ e.end_time = e.start_time + t.wcet) :=
  C6_single_node_contiguous c6app c6rank (by decide) (by decide)

/-- C5 amended: minPair, the node-selection rule of edf_multinode
(min over the node_time dict keyed by clock value), returns a node whose
clock is minimal, and among equal minimal clocks it returns the FIRST node
in node_time insertion order (the order of the PlatformData nodes list),
not the node with the smallest id. -/
theorem C5_amended_first_minimal_node (nt : List (Nat × Int)) (k : Nat) (v : Int)
    (h : minPair nt = some (k, v)) :
    ∃ l1 l2, nt = l1 ++ (k, v) :: l2
      ∧ (∀ p ∈ l1, v < p.2)
      ∧ (∀ p ∈ nt, v ≤ p.2) := by
  cases nt with
  | nil => cases h
  | cons p rest =>
    rcases p with ⟨k0, v0⟩
    have hgo : minPairGo k0 v0 rest = (k, v) := by
      have h2 := h
      rw [minPair] at h2
      exact Option.some.inj h2
    obtain ⟨l1, l2, heq, hlt, hle⟩ := minPairGo_spec rest k0 v0
    rw [hgo] at heq hlt hle
    exact ⟨l1, l2, heq, hlt, hle⟩

/-- Witness for the amended C5: with node 2 listed before node 1 and equal
clocks, the selection returns node 2, the first in list order. -/
theorem C5_amended_first_minimal_node_witness :
    ∃ l1 l2, c5nt = l1 ++ ((2 : Nat), (0 : Int)) :: l2
      ∧ (∀ p ∈ l1, (0 : Int) < p.2)
      ∧ (∀ p ∈ c5nt, (0 : Int) ≤ p.2) :=
  C5_amended_first_minimal_node c5nt 2 0 (by decide)

/-- C4 amended: equal-deadline ties are broken by the stable sort keeping
the current queue order -- ultimately the input-list order -- not by task id:
for any two independent tasks with equal deadlines (distinct ids), every
scheduler runs the task listed first in the input first, regardless of
which id is smaller. -/
theorem C4_amended_ties_by_input_order (t1 t2 : Task)
    (hdl : t1.deadline = t2.deadline) (hne : t1.id ≠ t2.id) :
    (edf_single_node { tasks := [t1, t2], messages := [] }).map
        (fun o => o.result.schedule.map (fun e => e.task_id)) = .ok [t1.id, t2.id]
    ∧ (ldf_single_node { tasks := [t1, t2], messages := [] }).map
        (fun o => o.result.schedule.map (fun e => e.task_id)) = .ok [t1.id, t2.id]
    ∧ (edf_multinode { tasks := [t1, t2], messages := [] }
          { nodes := [ { id := 1 } ], links := [] }).map
        (fun o => o.result.schedule.map (fun e => e.task_id)) = .ok [t1.id, t2.id] := by
  have hinit : initIndeg [t1, t2] = [(t1.id, 0), (t2.id, 0)] := by
    unfold initIndeg
    simp [dictSet, hne]
  have hd0 : buildIndeg [t1, t2] [] = .ok [(t1.id, 0), (t2.id, 0)] := by
    unfold buildIndeg
    rw [hinit]
    rfl
  have hsortE : edfSort [t1, t2] = [t1, t2] := by
    unfold edfSort
    simp only [List.insertionSort, List.orderedInsert]
    have hle : edfLe t1 t2 := le_of_eq hdl
    rw [if_pos hle]
  have hsortL : ldfSort [t1, t2] = [t1, t2] := by
    unfold ldfSort
    simp only [List.insertionSort, List.orderedInsert]
    have hle : ldfLe t1 t2 := le_of_eq hdl.symm
    rw [if_pos hle]
  have hg1 : dictGet? [(t1.id, 0), (t2.id, 0)] t1.id = some 0 := by
    unfold dictGet?
    rw [List.find?_cons_of_pos _ (by simp)]
    rfl
  have hg2 : dictGet? [(t1.id, 0), (t2.id, 0)] t2.id = some 0 := by
    unfold dictGet?
    rw [List.find?_cons_of_neg _ (by simpa using hne),
      List.find?_cons_of_pos _ (by simp)]
    rfl
  have hready : readyFilter [(t1.id, 0), (t2.id, 0)] [t1, t2] = [t1, t2] := by
    unfold readyFilter
    simp [List.filter, hg1, hg2]
  have hloopE : snLoop edfSort [t1, t2] [] (pyFuel [t1, t2]) [t1, t2]
      [(t1.id, 0), (t2.id, 0)] 0 [] =
        .ok ([(⟨t1.id, 1, 0, 0 + t1.wcet, t1.deadline⟩ : ScheduleEntry),
              (⟨t2.id, 1, 0 + t1.wcet, 0 + t1.wcet + t2.wcet, t2.deadline⟩ : ScheduleEntry)],
          0 + t1.wcet + t2.wcet) := rfl
  have hloopL : snLoop ldfSort [t1, t2] [] (pyFuel [t1, t2]) [t1, t2]
      [(t1.id, 0), (t2.id, 0)] 0 [] =
        .ok ([(⟨t1.id, 1, 0, 0 + t1.wcet, t1.deadline⟩ : ScheduleEntry),
              (⟨t2.id, 1, 0 + t1.wcet, 0 + t1.wcet + t2.wcet, t2.deadline⟩ : ScheduleEntry)],
          0 + t1.wcet + t2.wcet) := rfl
  have hloopM : mnLoop [t1, t2] [] [] (pyFuel [t1, t2]) [t1, t2]
      [(t1.id, 0), (t2.id, 0)] (initNodeTime [ { id := 1 } ]) [] =
        .ok ([(⟨t1.id, 1, 0, 0 + t1.wcet, t1.deadline⟩ : ScheduleEntry),
              (⟨t2.id, 1, 0 + t1.wcet, 0 + t1.wcet + t2.wcet, t2.deadline⟩ : ScheduleEntry)],
          [(1, 0 + t1.wcet + t2.wcet)]) := rfl
  refine ⟨?_, ?_, ?_⟩
  · unfold edf_single_node
    dsimp only
    rw [hd0]
    dsimp only
    rw [hsortE, hready, hsortE, hloopE]
    rfl
  · unfold ldf_single_node
    dsimp only
    rw [hd0]
    dsimp only
    rw [hsortL, hready, hsortL, hloopL]
    rfl
  · unfold edf_multinode
    dsimp only
    rw [hd0]
    dsimp only
    rw [hsortE, hready, hsortE, hloopM]
    rfl

/-- Witness for the amended C4 at concrete tasks: ids 2 then 1, equal
deadline 10; both ready, and id 2 (listed first) is scheduled first. -/
theorem C4_amended_ties_by_input_order_witness :
    (edf_single_node { tasks := [ { id := 2, wcet := 1, deadline := 10 },
        { id := 1, wcet := 1, deadline := 10 } ], messages := [] }).map
        (fun o => o.result.schedule.map (fun e => e.task_id)) = .ok [2, 1]
    ∧ (ldf_single_node { tasks := [ { id := 2, wcet := 1, deadline := 10 },
        { id := 1, wcet := 1, deadline := 10 } ], messages := [] }).map
        (fun o => o.result.schedule.map (fun e => e.task_id)) = .ok [2, 1]
    ∧ (edf_multinode { tasks := [ { id := 2, wcet := 1, deadline := 10 },
        { id := 1, wcet := 1, deadline := 10 } ], messages := [] }
          { nodes := [ { id := 1 } ], links := [] }).map
        (fun o => o.result.schedule.map (fun e => e.task_id)) = .ok [2, 1] :=
  C4_amended_ties_by_input_order { id := 2, wcet := 1, deadline := 10 }
    { id := 1, wcet := 1, deadline := 10 } rfl (by decide)

end Sched
